import Mathlib

/-!
# obsidian-cli: note metadata, backlinks and fuzzy matching

A shallow embedding of `pkg/actions/info.go` and `pkg/obsidian/fuzzyfinder.go`, with
theorems about `uniqueTags`, `getLinksInfo`, `GetNoteInfo`, `FuzzyMatch`,
`humanizeSize` and `calculateReadingTime`.

* Go strings are modelled by Lean `String`s (sequences of Unicode scalar values), so
  only well-formed UTF-8 is covered.
* The functions of the Go standard library that the code calls (`strings`,
  `path/filepath`, `unicode`, `math`, `fmt`) are written out from their library
  definitions; the Unicode case tables are a parameter (`unicode.CaseTables`).
* A `float64` is modelled by the rational number it denotes, every operation being
  the exact one followed by IEEE 754 rounding to nearest, ties to even.
* The functions of `pkg/obsidian` whose source is not at hand (`ExtractFrontmatter`,
  `ExtractHashtags`, `ExtractWikilinks`, ...) and the `NoteManager` interface are
  parameters.  `ListFiles` (`list.go`) is not at hand either and is modelled from the
  specification.
-/

set_option autoImplicit false

/-! ## Package `unicode` -/

namespace unicode

/-- The case tables of Go's `unicode` package, which the code reaches through
`strings.ToLower` and `strings.EqualFold`.  ASCII is handled by the code paths
written out below; the tables are only consulted above `MaxASCII`. -/
structure CaseTables where
  /-- Value of `unicode.To(unicode.LowerCase, r)` for a rune above `MaxASCII`. -/
  lower : Char → Char
  /-- For runes `sr < tr` with `tr ≥ utf8.RuneSelf`: does stepping with
  `unicode.SimpleFold` from `sr` arrive at `tr`? -/
  foldReaches : Char → Char → Bool

/-- Tables that leave every rune above ASCII alone; used for concrete ASCII inputs. -/
def asciiTables : CaseTables where
  lower := fun r => r
  foldReaches := fun _ _ => false

/-- Go `unicode.ToLower`. -/
def ToLower (T : CaseTables) (r : Char) : Char :=
  if r.toNat ≤ 0x7F then
    if 0x41 ≤ r.toNat ∧ r.toNat ≤ 0x5A then Char.ofNat (r.toNat + 32) else r
  else T.lower r

/-- Go `unicode.IsSpace`: the Latin-1 cases and the `White_Space` table. -/
def IsSpace (r : Char) : Bool :=
  let n := r.toNat
  n == 0x09 || n == 0x0A || n == 0x0B || n == 0x0C || n == 0x0D || n == 0x20 ||
  n == 0x85 || n == 0xA0 || n == 0x1680 || (0x2000 ≤ n && n ≤ 0x200A) ||
  n == 0x2028 || n == 0x2029 || n == 0x202F || n == 0x205F || n == 0x3000

end unicode

/-! ## Package `strings` -/

namespace strings

/-- Go `strings.ToLower`: every rune mapped through `unicode.ToLower`. -/
def ToLower (T : unicode.CaseTables) (s : String) : String :=
  String.mk (s.data.map (unicode.ToLower T))

/-- Go `strings.TrimSpace`: leading and trailing `unicode.IsSpace` runes removed. -/
def TrimSpace (s : String) : String :=
  String.mk (((s.data.dropWhile unicode.IsSpace).reverse.dropWhile unicode.IsSpace).reverse)

/-- Go `strings.TrimPrefix`. -/
def TrimPrefix (s pre : String) : String :=
  if pre.data.isPrefixOf s.data then String.mk (s.data.drop pre.data.length) else s

/-- Go `strings.TrimSuffix`. -/
def TrimSuffix (s suf : String) : String :=
  if suf.data.isSuffixOf s.data then
    String.mk (s.data.take (s.data.length - suf.data.length))
  else s

/-- Substring search behind `strings.Contains`: is `sub` a prefix of some suffix? -/
def containsAt : List Char → List Char → Bool
  | [], sub => sub.isPrefixOf []
  | c :: cs, sub => sub.isPrefixOf (c :: cs) || containsAt cs sub

/-- Go `strings.Contains`. -/
def Contains (s substr : String) : Bool :=
  containsAt s.data substr.data

/-- One rune pair of `strings.EqualFold`. -/
def equalFoldRune (T : unicode.CaseTables) (a b : Char) : Bool :=
  if a = b then true
  else
    let sr := if b.toNat < a.toNat then b else a
    let tr := if b.toNat < a.toNat then a else b
    if tr.toNat < 0x80 then
      0x41 ≤ sr.toNat && sr.toNat ≤ 0x5A && tr.toNat == sr.toNat + 32
    else T.foldReaches sr tr

/-- Rune-by-rune loop of `strings.EqualFold`. -/
def equalFoldRunes (T : unicode.CaseTables) : List Char → List Char → Bool
  | [], [] => true
  | a :: s, b :: t => equalFoldRune T a b && equalFoldRunes T s t
  | _, _ => false

/-- Go `strings.EqualFold`. -/
def EqualFold (T : unicode.CaseTables) (s t : String) : Bool :=
  equalFoldRunes T s.data t.data

/-- Scanner of `strings.Fields`; `cur` is the field being read, reversed. -/
def fieldsScan : List Char → List Char → List String
  | [], cur => if cur.isEmpty then [] else [String.mk cur.reverse]
  | c :: cs, cur =>
    if unicode.IsSpace c then
      if cur.isEmpty then fieldsScan cs [] else String.mk cur.reverse :: fieldsScan cs []
    else fieldsScan cs (c :: cur)

/-- Go `strings.Fields`: the maximal runs of non-space runes. -/
def Fields (s : String) : List String :=
  fieldsScan s.data []

end strings

/-! ## Package `path/filepath` (Unix: separator `/`, no volume names) -/

namespace filepath

/-- Backward scan of `filepath.Ext` over the reversed path; `acc` is the part
already passed, in path order. -/
def extScan : List Char → List Char → List Char
  | [], _ => []
  | c :: rest, acc =>
    if c = '/' then []
    else if c = '.' then '.' :: acc
    else extScan rest (c :: acc)

/-- Go `filepath.Ext`: the suffix from the final dot of the final path element. -/
def Ext (path : String) : String :=
  String.mk (extScan path.data.reverse [])

/-- Go `filepath.Base`: the last path element. -/
def Base (path : String) : String :=
  if path.data.isEmpty then "."
  else
    let stripped := path.data.reverse.dropWhile (fun c => c == '/')
    let last := (stripped.takeWhile (fun c => c != '/')).reverse
    if last.isEmpty then "/" else String.mk last

end filepath

/-! ## `float64` arithmetic

A finite `float64` value is modelled by the rational number it denotes; every
operation is the exact operation followed by rounding to nearest, ties to even
(IEEE 754 binary64).  Overflow to infinity does not occur for the values the
code computes (all below `2^64`) and is not modelled. -/

namespace float64

/-- Halving loop: `⌊log₂ n⌋` for `n ≥ 1`. -/
def log2Loop : Nat → Nat → Nat
  | 0, _ => 0
  | fuel + 1, n => if n < 2 then 0 else log2Loop fuel (n / 2) + 1

/-- The value `⌊log₂ n⌋` for `n ≥ 1` (and `0` for `n = 0`). -/
def natLog2 (n : Nat) : Nat :=
  log2Loop n n

/-- The exponent `e` with `2^e ≤ |q| < 2^(e+1)`, for `q ≠ 0`. -/
def binade (q : ℚ) : ℤ :=
  let e0 : ℤ := (natLog2 q.num.natAbs : ℤ) - (natLog2 q.den : ℤ)
  if (2 : ℚ) ^ e0 ≤ |q| then e0 else e0 - 1

/-- Nearest integer, ties to the even one. -/
def roundHalfEven (q : ℚ) : ℤ :=
  let f := ⌊q⌋
  if q - f < 1 / 2 then f
  else if 1 / 2 < q - f then f + 1
  else if f % 2 = 0 then f else f + 1

/-- Rounding of an exact result to `float64`: 53 significant bits, ties to even,
gradual underflow below `2^(-1022)`. -/
def nearest (q : ℚ) : ℚ :=
  if q = 0 then 0
  else
    let u : ℚ := 2 ^ (max (binade q) (-1022) - 52)
    roundHalfEven (q / u) * u

/-- Conversion `float64(n)` of an integer. -/
def ofInt (n : Int) : ℚ :=
  nearest n

/-- Division `x / y`. -/
def div (x y : ℚ) : ℚ :=
  nearest (x / y)

/-- Multiplication `x * y`. -/
def mul (x y : ℚ) : ℚ :=
  nearest (x * y)

end float64

namespace math

/-- Go `math.Round`: nearest integer, halves away from zero. -/
def Round (x : ℚ) : ℚ :=
  if x < 0 then -((⌊-x + 1 / 2⌋ : ℤ) : ℚ) else ((⌊x + 1 / 2⌋ : ℤ) : ℚ)

/-- Value of `math.Pow(10, float64(places))` for `0 ≤ places ≤ 22`, where the power of ten
is a `float64` and `Pow` returns it exactly (for `places = 1`, the only value the
code passes, `Pow` returns its first argument). -/
def Pow10 (places : Nat) : ℚ :=
  10 ^ places

end math

namespace fmt

/-- Verb `%d`. -/
def decimal (n : Int) : String :=
  toString n

/-- Verb `%.1f` of a finite value: the decimal expansion correctly rounded to one
fractional digit (ties to even), as `strconv.FormatFloat(x, 'f', 1, 64)` prints it. -/
def fixed1 (x : ℚ) : String :=
  let tenths := (float64.roundHalfEven (|x| * 10)).toNat
  (if x < 0 then "-" else "") ++ toString (tenths / 10) ++ "." ++ toString (tenths % 10)

end fmt

/-! ## Package `pkg/obsidian` -/

namespace obsidian

/-- A Go `interface{}` value as it occurs in parsed frontmatter and in the record
that `GetNoteInfo` returns. -/
inductive Value where
  /-- A `string`. -/
  | str (s : String)
  /-- A `[]string`. -/
  | strs (l : List String)
  /-- A `[]interface{}`. -/
  | list (l : List Value)
  /-- An `int` or `int64`. -/
  | int (n : Int)
  /-- A `float64`. -/
  | float (x : ℚ)
  /-- A `map[string]interface{}`. -/
  | map (m : List (String × Value))
  /-- A value of any other dynamic type. -/
  | other

/-- A `map[string]interface{}`, as the list of its entries. -/
abbrev GoMap := List (String × Value)

/-- Map index expression `m[k]` in its two-result form. -/
def GoMap.get? (m : GoMap) (k : String) : Option Value :=
  m.lookup k

/-- Map assignment `m[k] = v`. -/
def GoMap.set (m : GoMap) (k : String) (v : Value) : GoMap :=
  m.filter (fun e => e.1 != k) ++ [(k, v)]

/-- The text functions of `pkg/obsidian` that `info.go` calls and whose source is
not part of the files at hand. -/
structure TextExtractors where
  /-- Go `obsidian.ExtractFrontmatter`: the parsed map (`none` for a nil map) and the error. -/
  ExtractFrontmatter : String → Option GoMap × Option String
  /-- Go `obsidian.RemoveFrontmatter`. -/
  RemoveFrontmatter : String → String
  /-- Go `obsidian.ExtractNonCodeContent`. -/
  ExtractNonCodeContent : String → String
  /-- Go `obsidian.ExtractHashtags`. -/
  ExtractHashtags : String → List String
  /-- Go `obsidian.ExtractWikilinks`. -/
  ExtractWikilinks : String → List String

/-- The two methods of the `obsidian.NoteManager` interface that `info.go` calls.
The vault is taken not to change during a call, so they are functions. -/
structure NoteManager where
  /-- Method `GetContents(vaultPath, notePath)`. -/
  GetContents : String → String → Except String String
  /-- Method `GetNotesList(vaultPath)`. -/
  GetNotesList : String → Except String (List String)

/-- Function `FuzzyMatch` performs simplified fuzzy matching for file paths. -/
def FuzzyMatch (T : unicode.CaseTables) (pattern path : String) : Bool :=
  if pattern = "" then false
  else
    let lowerPattern := strings.ToLower T pattern
    let lowerPath := strings.ToLower T path
    strings.Contains lowerPath lowerPattern

end obsidian

/-! ## Package `pkg/actions` -/

namespace actions

open obsidian

/-- Type `InfoParams` contains parameters for the info command. -/
structure InfoParams where
  /-- Path to the file. -/
  FilePath : String
  /-- Whether to include tags in output. -/
  IncludeTags : Bool
  /-- Whether to include linked notes in output. -/
  IncludeLinks : Bool
  /-- Path to the vault. -/
  VaultPath : String

/-- What `GetNoteInfo` reads from the `os.FileInfo` that `osStat` returns. -/
structure FileInfo where
  /-- Value of `Size()`, an `int64`. -/
  Size : Int
  /-- Value of `ModTime().Format(time.RFC3339)`. -/
  ModTimeRFC3339 : String
  /-- Value of `ModTime().Format("Jan 02, 2006 15:04:05")`. -/
  ModTimeHuman : String

/-- Everything outside `info.go` that `GetNoteInfo` depends on, apart from the
note manager. -/
structure Env where
  /-- Unicode case tables. -/
  tables : unicode.CaseTables
  /-- Text functions of `pkg/obsidian`. -/
  text : TextExtractors
  /-- Package variable `osStat`. -/
  osStat : String → Except String FileInfo
  /-- Library function `filepath.Join` on two elements. -/
  Join : String → String → String
  /-- Package variable `Debug`. -/
  Debug : Bool

/-- How a call ends when it does not return a record. -/
inductive Failure where
  /-- A non-nil `error` with this message. -/
  | error (msg : String)
  /-- A run-time panic. -/
  | panic (msg : String)

/-- Result of a `GetNoteInfo` call: what it returns and what it wrote to `os.Stderr`. -/
structure Outcome where
  /-- Returned record, or the failure. -/
  ret : Except Failure GoMap
  /-- Lines written to standard error. -/
  stderr : List String

/-- Two's-complement wrap-around of `int64` arithmetic. -/
def wrapInt64 (x : Int) : Int :=
  (x + 2 ^ 63) % 2 ^ 64 - 2 ^ 63

/-- Loop `for n := size / unit; n >= unit; n /= unit` of `humanizeSize`, returning
the final `div` and `exp`.  The loop variable `n` is non-negative; the fuel is its
initial value, which the loop cannot use up since `n` shrinks in every turn. -/
def humanizeLoop : Nat → Nat → Int → Nat → Int × Nat
  | 0, _, div, exp => (div, exp)
  | fuel + 1, n, div, exp =>
    if n ≥ 1024 then humanizeLoop fuel (n / 1024) (wrapInt64 (div * 1024)) (exp + 1)
    else (div, exp)

/-- Function `humanizeSize` converts bytes to a human-readable string; `none` is the
index-out-of-range panic of `"KMGTPE"[exp]`. -/
def humanizeSize (size : Int) : Option String :=
  if size < 1024 then some (fmt.decimal size ++ " B")
  else
    let r := humanizeLoop (size.toNat / 1024) (size.toNat / 1024) 1024 0
    match "KMGTPE".data.get? r.2 with
    | none => none
    | some c =>
      some (fmt.fixed1 (float64.div (float64.ofInt size) (float64.ofInt r.1)) ++ " " ++
        String.singleton c ++ "B")

/-- Function `countWords` counts the number of words in a string. -/
def countWords (X : TextExtractors) (s : String) : Nat :=
  let s1 := X.RemoveFrontmatter s
  let s2 := X.ExtractNonCodeContent s1
  (strings.Fields s2).length

/-- Function `roundToDecimal` rounds a float to the specified number of decimal places. -/
def roundToDecimal (val : ℚ) (places : Nat) : ℚ :=
  let shift := math.Pow10 places
  float64.div (math.Round (float64.mul val shift)) shift

/-- Function `calculateReadingTime` estimates reading time in minutes. -/
def calculateReadingTime (wordCount : Int) : ℚ :=
  let minutes := float64.div (float64.ofInt wordCount) 200
  roundToDecimal minutes 1

/-- Normalized form of a tag in `uniqueTags`: `strings.ToLower(strings.TrimSpace(tag))`. -/
def normalizeTag (T : unicode.CaseTables) (tag : String) : String :=
  strings.ToLower T (strings.TrimSpace tag)

/-- Body of the loop of `uniqueTags`; the state is the key set of `seen` and `result`. -/
def uniqueTagsStep (T : unicode.CaseTables) (st : List String × List String) (tag : String) :
    List String × List String :=
  let normalizedTag := normalizeTag T tag
  if normalizedTag ≠ "" ∧ normalizedTag ∉ st.1 then (normalizedTag :: st.1, st.2 ++ [tag])
  else st

/-- Function `uniqueTags` returns a slice of unique tags. -/
def uniqueTags (T : unicode.CaseTables) (tags : List String) : List String :=
  (tags.foldl (uniqueTagsStep T) ([], [])).2

/-- Inner loop of `getLinksInfo`: does one of the links name the target? -/
def linksToTarget (T : unicode.CaseTables) (fileName : String) : List String → Bool
  | [] => false
  | link :: rest =>
    let linkName := strings.TrimSuffix link (filepath.Ext link)
    if strings.EqualFold T linkName fileName then true else linksToTarget T fileName rest

/-- Body of the outer loop of `getLinksInfo`. -/
def backlinkStep (E : Env) (note : NoteManager) (vaultPath filePath fileName : String)
    (backlinks : List String) (notePath : String) : List String :=
  if notePath = filePath then backlinks
  else
    match note.GetContents vaultPath notePath with
    | .error _ => backlinks
    | .ok noteContent =>
      let noteLinks := E.text.ExtractWikilinks noteContent
      if linksToTarget E.tables fileName noteLinks then backlinks ++ [notePath] else backlinks

/-- Function `getLinksInfo` gets information about links in a note: `(links, backlinks)` or
the error. -/
def getLinksInfo (E : Env) (note : NoteManager) (vaultPath filePath content : String) :
    Except String (List String × List String) :=
  let links := E.text.ExtractWikilinks content
  match note.GetNotesList vaultPath with
  | .error err => .error err
  | .ok allNotes =>
    let fileName := strings.TrimSuffix (filepath.Base filePath) (filepath.Ext filePath)
    let backlinks := allNotes.foldl (backlinkStep E note vaultPath filePath fileName) []
    .ok (links, backlinks)

/-- Title of `GetNoteInfo`: the frontmatter `title` when it is a non-empty string,
else the file name without its extension. -/
def resolveTitle (frontmatter : Option GoMap) (filePath : String) : String :=
  let title :=
    match frontmatter with
    | none => ""
    | some fm =>
      match fm.get? "title" with
      | some (.str t) => if t ≠ "" then t else ""
      | _ => ""
  if title = "" then strings.TrimSuffix (filepath.Base filePath) (filepath.Ext filePath)
  else title

/-- Tags that `GetNoteInfo` reads from the frontmatter: a `[]string` as it is, the
string elements of a `[]interface{}`, nothing otherwise. -/
def frontmatterTags (frontmatter : Option GoMap) : List String :=
  match frontmatter with
  | none => []
  | some fm =>
    match fm.get? "tags" with
    | some (.strs t) => t
    | some (.list t) =>
      t.filterMap (fun tag => match tag with
        | .str tagStr => some tagStr
        | _ => none)
    | _ => []

/-- Inline hashtags of `GetNoteInfo`, cleaned: `#` prefix removed, then trimmed. -/
def inlineTags (X : TextExtractors) (content : String) : List String :=
  (X.ExtractHashtags content).map (fun tag => strings.TrimSpace (strings.TrimPrefix tag "#"))

/-- Function `GetNoteInfo` retrieves and formats information about an Obsidian note.  (The
`vault` argument is not used by the function and is left out.) -/
def GetNoteInfo (E : Env) (note : NoteManager) (params : InfoParams) : Outcome :=
  let result : GoMap := []
  let filePath := params.FilePath
  let absolutePath := E.Join params.VaultPath filePath
  match E.osStat absolutePath with
  | .error _ => ⟨.error (.error ("file not found: " ++ filePath)), []⟩
  | .ok fileInfo =>
    let result := result.set "path" (.str filePath)
    let result := result.set "absolute_path" (.str absolutePath)
    let result := result.set "size" (.int fileInfo.Size)
    match humanizeSize fileInfo.Size with
    | none => ⟨.error (.panic "index out of range"), []⟩
    | some sizeHuman =>
      let result := result.set "size_human" (.str sizeHuman)
      let result := result.set "modified" (.str fileInfo.ModTimeRFC3339)
      let result := result.set "modified_human" (.str fileInfo.ModTimeHuman)
      match note.GetContents params.VaultPath filePath with
      | .error err => ⟨.error (.error ("error reading file: " ++ err)), []⟩
      | .ok content =>
        let parsed := E.text.ExtractFrontmatter content
        let frontmatter := parsed.1
        let warn1 : List String :=
          match parsed.2 with
          | some err =>
            if E.Debug then ["Warning: Error parsing frontmatter: " ++ err ++ "\n"] else []
          | none => []
        let title := resolveTitle frontmatter filePath
        let result := result.set "title" (.str title)
        let result :=
          match frontmatter with
          | some fm => result.set "frontmatter" (.map fm)
          | none => result
        let wordCount := countWords E.text content
        let result := result.set "word_count" (.int wordCount)
        let result :=
          result.set "reading_time_minutes" (.float (calculateReadingTime wordCount))
        let result :=
          if params.IncludeTags then
            let allTags :=
              uniqueTags E.tables (frontmatterTags frontmatter ++ inlineTags E.text content)
            result.set "tags" (.strs allTags)
          else result
        if params.IncludeLinks then
          match getLinksInfo E note params.VaultPath filePath content with
          | .ok lb =>
            ⟨.ok ((result.set "links" (.strs lb.1)).set "backlinks" (.strs lb.2)), warn1⟩
          | .error err =>
            ⟨.ok result,
              warn1 ++ (if E.Debug then ["Warning: Error getting links: " ++ err ++ "\n"]
                else [])⟩
        else ⟨.ok result, warn1⟩

/-- The claimed result of `uniqueTags`, in the words of the specification: the tags
at the positions `i` before which no tag has the same normalized form, in input
order. -/
def firstOccurrences (norm : String → String) (tags : List String) : List String :=
  (List.range tags.length).filterMap (fun i =>
    match tags[i]? with
    | some t => if norm t ∈ (tags.take i).map norm then none else some t
    | none => none)

/-! ### `ListFiles` -/

/-- Kinds of selection input, named as in `list_test.go`. -/
inductive InputType where
  /-- A path substring. -/
  | InputTypeFile
  /-- A tag. -/
  | InputTypeTag
  /-- A fuzzy name. -/
  | InputTypeFind
  deriving DecidableEq

/-- Type `ListInput` of `list_test.go`; `Kind` is the Go field `Type`. -/
structure ListInput where
  /-- Kind of the input. -/
  Kind : InputType
  /-- Its string value. -/
  Value : String

/-- Normalized tag set of a note's content: frontmatter tags and inline hashtags. -/
def noteTags (E : Env) (content : String) : List String :=
  (frontmatterTags (E.text.ExtractFrontmatter content).1 ++ inlineTags E.text content).map
    (normalizeTag E.tables)

/-- Modelled from the spec: the per-kind matching rule of `ListFiles` (section 4.2),
whose source file `list.go` is missing.  Path substring: case-insensitive
containment in the path; tag: the note's normalized tag set contains the normalized
query tag, a note that cannot be read matching nothing; fuzzy name: `FuzzyMatch`. -/
def inputMatches (E : Env) (note : NoteManager) (vaultPath : String) (input : ListInput)
    (notePath : String) : Bool :=
  match input.Kind with
  | .InputTypeFile =>
    strings.Contains (strings.ToLower E.tables notePath) (strings.ToLower E.tables input.Value)
  | .InputTypeTag =>
    match note.GetContents vaultPath notePath with
    | .error _ => false
    | .ok content => (noteTags E content).contains (normalizeTag E.tables input.Value)
  | .InputTypeFind => FuzzyMatch E.tables input.Value notePath

/-- Modelled from the spec: `ListFiles` (section 4.2), whose source file `list.go` is
missing.  It starts from the full note list and, for each selection input in turn,
keeps the candidates that satisfy the input, in their original order; a failure to
list the notes is returned.  The optional match callback only observes the result
and is left out. -/
def ListFiles (E : Env) (note : NoteManager) (vaultPath : String) (inputs : List ListInput) :
    Except String (List String) :=
  match note.GetNotesList vaultPath with
  | .error err => .error err
  | .ok allNotes =>
    .ok (inputs.foldl (fun candidates input =>
      candidates.filter (inputMatches E note vaultPath input)) allNotes)

/-! ### The scaling loop of `humanizeSize`, turn by turn -/

/-- Variables of the loop of `humanizeSize`: the loop variable `n`, `div` and `exp`. -/
structure LoopState where
  /-- Loop variable `n`. -/
  n : Nat
  /-- Divisor `div`, an `int64`. -/
  div : Int
  /-- Unit index `exp`. -/
  exp : Nat

/-- State on entry to the loop: `div, exp := int64(unit), 0` and `n := size / unit`
(the loop is only reached with `size >= unit`). -/
def loopInit (size : Int) : LoopState :=
  ⟨size.toNat / 1024, 1024, 0⟩

/-- Loop condition `n >= unit`. -/
def LoopState.continues (s : LoopState) : Bool :=
  decide (s.n ≥ 1024)

/-- One turn of the loop: the body `div *= unit; exp++` in `int64` arithmetic,
then the post statement `n /= unit`. -/
def LoopState.next (s : LoopState) : LoopState :=
  ⟨s.n / 1024, wrapInt64 (s.div * 1024), s.exp + 1⟩

/-- The pair `(div, exp)` with which `humanizeSize` leaves the loop. -/
def humanizeScale (size : Int) : Int × Nat :=
  humanizeLoop (size.toNat / 1024) (size.toNat / 1024) 1024 0

/-! ### Claimed and actual backlink tests -/

/-- Backlink test in the words of the specification: the note is another note, it
can be read, and one of its wikilinks equals the target's stem ignoring case. -/
def claimedBacklink (E : Env) (note : NoteManager) (vaultPath filePath notePath : String) :
    Bool :=
  notePath != filePath &&
    match note.GetContents vaultPath notePath with
    | .error _ => false
    | .ok noteContent =>
      (E.text.ExtractWikilinks noteContent).any (fun link =>
        strings.EqualFold E.tables link
          (strings.TrimSuffix (filepath.Base filePath) (filepath.Ext filePath)))

/-- Backlink test that describes the code: as `claimedBacklink`, but each wikilink
is compared after its own extension (`filepath.Ext`) has been cut off. -/
def isBacklink (E : Env) (note : NoteManager) (vaultPath filePath notePath : String) : Bool :=
  notePath != filePath &&
    match note.GetContents vaultPath notePath with
    | .error _ => false
    | .ok noteContent =>
      (E.text.ExtractWikilinks noteContent).any (fun link =>
        strings.EqualFold E.tables (strings.TrimSuffix link (filepath.Ext link))
          (strings.TrimSuffix (filepath.Base filePath) (filepath.Ext filePath)))

/-! ### A sample vault for concrete runs -/

/-- The note body of `info_test.go` (`testContent`). -/
def sampleContent : String :=
  "---\ntitle: Test Note\ntags: [test, example]\n---\n\n# Test Note\n\nThis is a test note with some #tag1 and #tag2.\n\n[[linked-note]]\n"

/-- Values of the missing text functions on the note bodies of the sample vault,
as section 4.1 of the specification describes them: the frontmatter block parsed
into a map, `#` tokens in order, the names between `[[` and `]]` in order. -/
def sampleText : TextExtractors where
  ExtractFrontmatter := fun c =>
    if c = sampleContent then
      (some [("title", .str "Test Note"), ("tags", .list [.str "test", .str "example"])], none)
    else if c = "---\ntitle: 2024\n---\nPlans" then (some [("title", .int 2024)], none)
    else if c = "---\ntags: [test, important]\n---\nContent" then
      (some [("tags", .list [.str "test", .str "important"])], none)
    else (none, none)
  RemoveFrontmatter := fun c => c
  ExtractNonCodeContent := fun c => c
  ExtractHashtags := fun c =>
    if c = sampleContent then ["#tag1", "#tag2"]
    else if c = "Content with #important tag" then ["#important"]
    else []
  ExtractWikilinks := fun c =>
    if c = sampleContent then ["linked-note"]
    else if c = "[[test]]" then ["test"]
    else if c = "[[test.md]]" then ["test.md"]
    else if c = "[[v1.2]]" then ["v1.2"]
    else []

/-- A sample environment: ASCII case tables, a file of 1024 bytes at every path (the
stubbed `osStat` of `info_test.go`), `Debug` off. -/
def sampleEnv : Env where
  tables := unicode.asciiTables
  text := sampleText
  osStat := fun _ => .ok ⟨1024, "2023-09-01T12:00:00Z", "Sep 01, 2023 12:00:00"⟩
  Join := fun a b => a ++ "/" ++ b
  Debug := false

/-- A note manager over a fixed listing result and a fixed table of note bodies. -/
def sampleNotes (listing : Except String (List String)) (files : List (String × String)) :
    NoteManager where
  GetContents := fun _ notePath =>
    match files.lookup notePath with
    | some c => .ok c
    | none => .error "note does not exist"
  GetNotesList := fun _ => listing

/-- Entry of the returned record under a key; `none` when the call failed or the
key is absent. -/
def Outcome.field (o : Outcome) (k : String) : Option Value :=
  match o.ret with
  | .ok r => r.get? k
  | .error _ => none

/-- The returned record; empty when the call failed. -/
def Outcome.record (o : Outcome) : GoMap :=
  match o.ret with
  | .ok r => r
  | .error _ => []

/-- Did the call return a record (a nil error)? -/
def Outcome.succeeded (o : Outcome) : Bool :=
  match o.ret with
  | .ok _ => true
  | .error _ => false

end actions

/-! # Theorems -/

/-! ## `float64` rounding -/

namespace float64

theorem log2Loop_spec (fuel n : Nat) (hn : 1 ≤ n) (hf : n ≤ fuel) :
    2 ^ log2Loop fuel n ≤ n ∧ n < 2 ^ (log2Loop fuel n + 1) := by
  induction fuel generalizing n with
  | zero => omega
  | succ f ih =>
    unfold log2Loop
    by_cases h2 : n < 2
    · rw [if_pos h2]
      constructor <;> simp <;> omega
    · rw [if_neg h2]
      have := ih (n / 2) (by omega) (by omega)
      constructor
      · rw [pow_succ]; omega
      · rw [pow_succ]; omega

theorem natLog2_spec (n : Nat) (hn : 1 ≤ n) :
    2 ^ natLog2 n ≤ n ∧ n < 2 ^ (natLog2 n + 1) :=
  log2Loop_spec n n hn (le_refl n)

theorem abs_eq_natAbs_div_den (q : ℚ) : |q| = (q.num.natAbs : ℚ) / (q.den : ℚ) := by
  conv_lhs => rw [← Rat.num_div_den q]
  rw [abs_div, Nat.abs_cast, Nat.cast_natAbs, Int.cast_abs]

theorem binade_le (q : ℚ) (hq : q ≠ 0) : (2 : ℚ) ^ binade q ≤ |q| := by
  unfold binade
  simp only
  split
  · assumption
  · have ha : 1 ≤ q.num.natAbs := by
      have : q.num ≠ 0 := Rat.num_ne_zero.mpr hq
      omega
    have hb : 1 ≤ q.den := q.den_pos
    obtain ⟨ha1, -⟩ := natLog2_spec _ ha
    obtain ⟨-, hb2⟩ := natLog2_spec _ hb
    rw [abs_eq_natAbs_div_den]
    have hbq : (0 : ℚ) < q.den := by exact_mod_cast hb
    rw [le_div_iff₀ hbq]
    have h1 : ((2 : ℚ) ^ natLog2 q.num.natAbs) ≤ q.num.natAbs := by exact_mod_cast ha1
    have h2 : (q.den : ℚ) ≤ 2 ^ (natLog2 q.den + 1) := by exact_mod_cast hb2.le
    have e : (2 : ℚ) ^ ((natLog2 q.num.natAbs : ℤ) - (natLog2 q.den : ℤ) - 1) =
        2 ^ natLog2 q.num.natAbs / 2 ^ (natLog2 q.den + 1) := by
      rw [sub_sub, zpow_sub₀ (by norm_num), zpow_natCast]
      congr 1
      rw [← zpow_natCast]
      congr 1
    rw [e, div_mul_eq_mul_div, div_le_iff₀ (by positivity)]
    calc (2 : ℚ) ^ natLog2 q.num.natAbs * q.den ≤ 2 ^ natLog2 q.num.natAbs * 2 ^ (natLog2 q.den + 1) := by
          apply mul_le_mul_of_nonneg_left h2 (by positivity)
      _ ≤ q.num.natAbs * 2 ^ (natLog2 q.den + 1) := by
          apply mul_le_mul_of_nonneg_right h1 (by positivity)

theorem lt_binade (q : ℚ) (hq : q ≠ 0) : |q| < (2 : ℚ) ^ (binade q + 1) := by
  unfold binade
  simp only
  have ha : 1 ≤ q.num.natAbs := by
    have : q.num ≠ 0 := Rat.num_ne_zero.mpr hq
    omega
  have hb : 1 ≤ q.den := q.den_pos
  split
  · obtain ⟨-, ha2⟩ := natLog2_spec _ ha
    obtain ⟨hb1, -⟩ := natLog2_spec _ hb
    rw [abs_eq_natAbs_div_den]
    have hbq : (0 : ℚ) < q.den := by exact_mod_cast hb
    rw [div_lt_iff₀ hbq]
    have h1 : (q.num.natAbs : ℚ) < 2 ^ (natLog2 q.num.natAbs + 1) := by exact_mod_cast ha2
    have h2 : (2 : ℚ) ^ natLog2 q.den ≤ q.den := by exact_mod_cast hb1
    have e : (2 : ℚ) ^ ((natLog2 q.num.natAbs : ℤ) - (natLog2 q.den : ℤ) + 1) =
        2 ^ (natLog2 q.num.natAbs + 1) / 2 ^ natLog2 q.den := by
      rw [sub_add_eq_add_sub, zpow_sub₀ (by norm_num), zpow_natCast]
      congr 1
      rw [← zpow_natCast]
      congr 1
    rw [e, div_mul_eq_mul_div, lt_div_iff₀ (by positivity)]
    calc (q.num.natAbs : ℚ) * 2 ^ natLog2 q.den < 2 ^ (natLog2 q.num.natAbs + 1) * 2 ^ natLog2 q.den := by
          apply mul_lt_mul_of_pos_right h1 (by positivity)
      _ ≤ 2 ^ (natLog2 q.num.natAbs + 1) * q.den := by
          apply mul_le_mul_of_nonneg_left h2 (by positivity)
  · rename_i h
    simpa using lt_of_not_le h

theorem roundHalfEven_intCast (z : ℤ) : roundHalfEven (z : ℚ) = z := by
  unfold roundHalfEven
  simp

theorem roundHalfEven_error (q : ℚ) : |q - roundHalfEven q| ≤ 1 / 2 := by
  unfold roundHalfEven
  have h0 : (0 : ℚ) ≤ q - ⌊q⌋ := by linarith [Int.floor_le q]
  have h1 : q - ⌊q⌋ < 1 := by linarith [Int.lt_floor_add_one q]
  simp only
  split_ifs with h2 h3 h4
  · rw [abs_of_nonneg h0]; exact h2.le
  · rw [abs_le]; push_cast; constructor <;> linarith
  · rw [abs_of_nonneg h0]; linarith
  · rw [abs_le]; push_cast; constructor <;> linarith

theorem nearest_of_repr (m s : ℤ) (hm : |m| < 2 ^ 53) (hs : -1074 ≤ s) :
    nearest ((m : ℚ) * 2 ^ s) = (m : ℚ) * 2 ^ s := by
  by_cases hm0 : m = 0
  · simp [hm0, nearest]
  have h2s : (0 : ℚ) < 2 ^ s := by positivity
  have hq : (m : ℚ) * 2 ^ s ≠ 0 := by
    apply mul_ne_zero
    · exact_mod_cast hm0
    · exact h2s.ne'
  unfold nearest
  rw [if_neg hq]
  simp only
  have hE : max (binade ((m : ℚ) * 2 ^ s)) (-1022) - 52 ≤ s := by
    rcases max_cases (binade ((m : ℚ) * 2 ^ s)) (-1022) with ⟨h1, -⟩ | ⟨h1, -⟩
    · rw [h1]
      have hb := binade_le _ hq
      rw [abs_mul, abs_of_pos h2s] at hb
      have hm' : |(m : ℚ)| < 2 ^ (53 : ℤ) := by
        rw [← Int.cast_abs]
        have : ((|m| : ℤ) : ℚ) < ((2 ^ 53 : ℤ) : ℚ) := by exact_mod_cast hm
        norm_num at this ⊢
        exact this
      have hlt : (2 : ℚ) ^ binade ((m : ℚ) * 2 ^ s) < 2 ^ (53 + s) := by
        rw [zpow_add₀ (by norm_num : (2 : ℚ) ≠ 0)]
        calc (2 : ℚ) ^ binade ((m : ℚ) * 2 ^ s) ≤ |(m : ℚ)| * 2 ^ s := hb
          _ < 2 ^ (53 : ℤ) * 2 ^ s := mul_lt_mul_of_pos_right hm' h2s
      have := (zpow_lt_zpow_iff_right₀ (by norm_num : (1 : ℚ) < 2)).mp hlt
      omega
    · rw [h1]; omega
  generalize max (binade ((m : ℚ) * 2 ^ s)) (-1022) - 52 = E at hE ⊢
  obtain ⟨t, rfl⟩ := Int.le.dest hE
  have hE0 : (0 : ℚ) < 2 ^ E := by positivity
  have hdiv : (m : ℚ) * 2 ^ (E + (t : ℤ)) / 2 ^ E = ((m * 2 ^ t : ℤ) : ℚ) := by
    rw [zpow_add₀ (by norm_num : (2 : ℚ) ≠ 0), zpow_natCast]
    push_cast
    field_simp
    ring
  rw [hdiv, roundHalfEven_intCast, ← hdiv]
  field_simp

theorem roundHalfEven_tie (q : ℚ) (h : |q - roundHalfEven q| = 1 / 2) :
    roundHalfEven q % 2 = 0 := by
  unfold roundHalfEven at h ⊢
  have h0 : (0 : ℚ) ≤ q - ⌊q⌋ := by linarith [Int.floor_le q]
  have h1 : q - ⌊q⌋ < 1 := by linarith [Int.lt_floor_add_one q]
  simp only at h ⊢
  split_ifs at h ⊢ with h2 h3 h4
  · rw [abs_of_nonneg h0] at h; linarith
  · exfalso
    have : q - ((⌊q⌋ + 1 : ℤ) : ℚ) ≤ 0 := by push_cast; linarith
    rw [abs_of_nonpos this] at h
    push_cast at h
    linarith
  · exact h4
  · omega

theorem roundHalfEven_nonneg (q : ℚ) (h : 0 ≤ q) : 0 ≤ roundHalfEven q := by
  unfold roundHalfEven
  have : 0 ≤ ⌊q⌋ := Int.floor_nonneg.mpr h
  simp only
  split_ifs <;> omega

theorem ofInt_exact (n : ℤ) (h : |n| < 2 ^ 53) : ofInt n = n := by
  have := nearest_of_repr n 0 h (by norm_num)
  simpa [ofInt] using this

theorem ofInt_pow1024 (j : ℕ) (hj : j ≤ 6) : ofInt (1024 ^ j) = 1024 ^ j := by
  have := nearest_of_repr 1 (10 * j) (by norm_num) (by omega)
  have e : ((1 : ℤ) : ℚ) * 2 ^ (10 * (j : ℤ)) = 1024 ^ j := by
    rw [Int.cast_one, one_mul, zpow_mul, ← zpow_natCast]
    norm_num
  rw [e] at this
  unfold ofInt
  push_cast
  exact this

theorem div_pow1024_exact (n : ℤ) (j : ℕ) (h : |n| < 2 ^ 53) (hj : j ≤ 6) :
    float64.div n (1024 ^ j) = n / 1024 ^ j := by
  have := nearest_of_repr n (-(10 * j)) h (by omega)
  have e : (n : ℚ) * 2 ^ (-(10 * (j : ℤ))) = n / 1024 ^ j := by
    rw [zpow_neg, zpow_mul, ← zpow_natCast, div_eq_mul_inv]
    norm_num
  rw [e] at this
  exact this

theorem roundHalfEven_of_even (I : ℤ) (z : ℚ) (hI : I % 2 = 0) (hz : |z - I| ≤ 1 / 2) :
    roundHalfEven z = I := by
  rw [abs_le] at hz
  obtain ⟨hz1, hz2⟩ := hz
  unfold roundHalfEven
  simp only
  by_cases hge : (I : ℚ) ≤ z
  · have hfl : ⌊z⌋ = I := by
      rw [Int.floor_eq_iff]
      constructor <;> linarith
    rw [hfl]
    split_ifs <;> first | rfl | omega | (exfalso; linarith)
  · have hfl : ⌊z⌋ = I - 1 := by
      rw [Int.floor_eq_iff]
      push_cast
      constructor <;> linarith
    rw [hfl]
    push_cast
    split_ifs <;> first | omega | (exfalso; linarith)

theorem le_roundHalfEven (n : ℤ) (z : ℚ) (h : (n : ℚ) ≤ z) : n ≤ roundHalfEven z := by
  have hfl : n ≤ ⌊z⌋ := Int.le_floor.mpr h
  unfold roundHalfEven
  simp only
  split_ifs <;> omega

theorem binade_ge (q : ℚ) (j : ℤ) (hq : (2 : ℚ) ^ j ≤ |q|) : j ≤ binade q := by
  have hq0 : q ≠ 0 := by
    intro h
    rw [h, abs_zero] at hq
    have : (0 : ℚ) < 2 ^ j := by positivity
    linarith
  have := lt_of_le_of_lt hq (lt_binade q hq0)
  have := (zpow_lt_zpow_iff_right₀ (by norm_num : (1 : ℚ) < 2)).mp this
  omega

theorem binade_lt (q : ℚ) (j : ℤ) (hq0 : q ≠ 0) (hq : |q| < (2 : ℚ) ^ j) : binade q < j := by
  have := lt_of_le_of_lt (binade_le q hq0) hq
  exact (zpow_lt_zpow_iff_right₀ (by norm_num : (1 : ℚ) < 2)).mp this

theorem nearest_eq (q : ℚ) (hq : q ≠ 0) (hb : -1022 ≤ binade q) :
    nearest q = roundHalfEven (q / 2 ^ (binade q - 52)) * 2 ^ (binade q - 52) := by
  unfold nearest
  rw [if_neg hq, max_eq_left hb]

theorem nearest_error_ulp (q : ℚ) (hq : q ≠ 0) (hb : -1022 ≤ binade q) :
    |nearest q - q| ≤ 2 ^ (binade q - 53) := by
  rw [nearest_eq q hq hb]
  have hu : (0 : ℚ) < 2 ^ (binade q - 52) := by positivity
  have h1 := roundHalfEven_error (q / 2 ^ (binade q - 52))
  have h2 : (roundHalfEven (q / 2 ^ (binade q - 52)) : ℚ) * 2 ^ (binade q - 52) - q =
      -(q / 2 ^ (binade q - 52) - roundHalfEven (q / 2 ^ (binade q - 52))) *
        2 ^ (binade q - 52) := by
    field_simp
    ring
  rw [h2, abs_mul, abs_neg, abs_of_pos hu]
  have h3 : (2 : ℚ) ^ (binade q - 52) = 2 * 2 ^ (binade q - 53) := by
    rw [show binade q - 52 = 1 + (binade q - 53) by ring,
      zpow_add₀ (by norm_num : (2 : ℚ) ≠ 0), zpow_one]
  calc |q / 2 ^ (binade q - 52) - roundHalfEven (q / 2 ^ (binade q - 52))| *
        2 ^ (binade q - 52) ≤ 1 / 2 * 2 ^ (binade q - 52) :=
        mul_le_mul_of_nonneg_right h1 hu.le
    _ = 2 ^ (binade q - 53) := by rw [h3]; ring

theorem nearest_error (q : ℚ) (hq : q ≠ 0) (hb : -1022 ≤ binade q) :
    |nearest q - q| ≤ |q| * 2 ^ (-53 : ℤ) := by
  have h4 := binade_le q hq
  calc |nearest q - q| ≤ 2 ^ (binade q - 53) := nearest_error_ulp q hq hb
    _ = 2 ^ binade q * 2 ^ (-53 : ℤ) := by
        rw [sub_eq_add_neg, zpow_add₀ (by norm_num : (2 : ℚ) ≠ 0)]
    _ ≤ |q| * 2 ^ (-53 : ℤ) := mul_le_mul_of_nonneg_right h4 (by positivity)

theorem ulp_pow (e : ℤ) (he : e ≤ 50) :
    ∃ t : ℕ, e = 50 - t ∧ (2 : ℚ) ^ e = 2 ^ 50 / 2 ^ t ∧ (2 : ℚ) ^ (e - 52) = 1 / (4 * 2 ^ t) := by
  obtain ⟨t, ht⟩ := Int.le.dest he
  refine ⟨t, by omega, ?_, ?_⟩
  · have : e = 50 - (t : ℤ) := by omega
    rw [this, zpow_sub₀ (by norm_num : (2 : ℚ) ≠ 0), zpow_natCast]
    norm_num
  · have : e - 52 = -(2 + (t : ℤ)) := by omega
    rw [this, zpow_neg, zpow_add₀ (by norm_num : (2 : ℚ) ≠ 0), zpow_natCast]
    norm_num

theorem nearest_zero : nearest 0 = 0 := by
  simp [nearest]

end float64

namespace actions

open obsidian float64

/-! ## `uniqueTags` -/

theorem uniqueTags_seen (T : unicode.CaseTables) (tags : List String)
    (st : List String × List String) (x : String) :
    x ∈ (tags.foldl (uniqueTagsStep T) st).1 ↔
      x ∈ st.1 ∨ (x ≠ "" ∧ x ∈ tags.map (normalizeTag T)) := by
  induction tags generalizing st with
  | nil => simp
  | cons t rest ih =>
    rw [List.foldl_cons, ih]
    unfold uniqueTagsStep
    by_cases hc : normalizeTag T t ≠ "" ∧ normalizeTag T t ∉ st.1
    · rw [if_pos hc]
      simp only [List.mem_cons, List.map_cons]
      constructor
      · rintro (h | h)
        · rcases h with h | h
          · exact Or.inr ⟨h ▸ hc.1, Or.inl h⟩
          · exact Or.inl h
        · exact Or.inr ⟨h.1, Or.inr h.2⟩
      · rintro (h | ⟨h1, h2 | h2⟩)
        · exact Or.inl (Or.inr h)
        · exact Or.inl (Or.inl h2)
        · exact Or.inr ⟨h1, h2⟩
    · rw [if_neg hc]
      simp only [List.map_cons, List.mem_cons]
      constructor
      · rintro (h | h)
        · exact Or.inl h
        · exact Or.inr ⟨h.1, Or.inr h.2⟩
      · rintro (h | ⟨h1, h2 | h2⟩)
        · exact Or.inl h
        · by_cases hs : normalizeTag T t ∈ st.1
          · exact Or.inl (h2 ▸ hs)
          · exact absurd ⟨h2 ▸ h1, hs⟩ hc
        · exact Or.inr ⟨h1, h2⟩

/-- Appending one tag: it is added exactly when its normalized form is not blank and
has not occurred before. -/
theorem uniqueTags_concat (T : unicode.CaseTables) (pre : List String) (t : String) :
    uniqueTags T (pre ++ [t]) =
      uniqueTags T pre ++
        (if normalizeTag T t ≠ "" ∧ normalizeTag T t ∉ pre.map (normalizeTag T) then [t]
          else []) := by
  unfold uniqueTags
  rw [List.foldl_append, List.foldl_cons, List.foldl_nil]
  have hseen := uniqueTags_seen T pre ([], []) (normalizeTag T t)
  simp only [List.not_mem_nil, false_or] at hseen
  generalize List.foldl (uniqueTagsStep T) ([], []) pre = st at hseen
  unfold uniqueTagsStep
  by_cases hb : normalizeTag T t = ""
  · simp [hb]
  · by_cases hm : normalizeTag T t ∈ pre.map (normalizeTag T)
    · have : normalizeTag T t ∈ st.1 := hseen.mpr ⟨hb, hm⟩
      simp [hm, this]
    · have : normalizeTag T t ∉ st.1 := fun h => hm (hseen.mp h).2
      simp [hb, hm, this]

theorem firstOccurrences_concat (norm : String → String) (pre : List String) (t : String) :
    firstOccurrences norm (pre ++ [t]) =
      firstOccurrences norm pre ++ (if norm t ∈ pre.map norm then [] else [t]) := by
  unfold firstOccurrences
  rw [List.length_append, List.length_singleton, List.range_succ, List.filterMap_append]
  congr 1
  · apply List.filterMap_congr
    intro i hi
    have hi : i < pre.length := List.mem_range.mp hi
    rw [List.getElem?_append_left hi, List.take_append_of_le_length (Nat.le_of_lt hi)]
  · simp only [List.filterMap_cons, List.filterMap_nil]
    have h1 : (pre ++ [t])[pre.length]? = some t := by simp
    have h2 : (pre ++ [t]).take pre.length = pre := by simp
    rw [h1, h2]
    by_cases hm : norm t ∈ pre.map norm <;> simp [hm]

theorem uniqueTags_eq_firstOccurrences (T : unicode.CaseTables) (tags : List String)
    (h : ∀ t ∈ tags, normalizeTag T t ≠ "") :
    uniqueTags T tags = firstOccurrences (normalizeTag T) tags := by
  induction tags using List.reverseRecOn with
  | nil => rfl
  | append_singleton pre t ih =>
    rw [uniqueTags_concat, firstOccurrences_concat,
      ih (fun u hu => h u (List.mem_append_left _ hu))]
    have hb : normalizeTag T t ≠ "" := h t (by simp)
    by_cases hm : normalizeTag T t ∈ pre.map (normalizeTag T) <;> simp [hb, hm]

theorem uniqueTags_sublist (T : unicode.CaseTables) (tags : List String) :
    (uniqueTags T tags).Sublist tags := by
  induction tags using List.reverseRecOn with
  | nil => exact List.Sublist.refl _
  | append_singleton pre t ih =>
    rw [uniqueTags_concat]
    split
    · exact List.Sublist.append ih (List.Sublist.refl _)
    · simpa using ih.trans (List.sublist_append_left pre [t])

theorem uniqueTags_nodup (T : unicode.CaseTables) (tags : List String) :
    ((uniqueTags T tags).map (normalizeTag T)).Nodup := by
  induction tags using List.reverseRecOn with
  | nil => exact List.nodup_nil
  | append_singleton pre t ih =>
    rw [uniqueTags_concat]
    split
    · rename_i hc
      rw [List.map_append, List.map_singleton]
      apply List.Nodup.append ih (List.nodup_singleton _)
      intro x hx hx2
      rw [List.mem_singleton] at hx2
      subst hx2
      exact hc.2 ((uniqueTags_sublist T pre).map _ |>.subset hx)
    · simpa using ih

theorem uniqueTags_covers (T : unicode.CaseTables) (tags : List String)
    (h : ∀ t ∈ tags, normalizeTag T t ≠ "") :
    ∀ t ∈ tags, normalizeTag T t ∈ (uniqueTags T tags).map (normalizeTag T) := by
  induction tags using List.reverseRecOn with
  | nil => simp
  | append_singleton pre t ih =>
    have ih2 := ih (fun u hu => h u (List.mem_append_left _ hu))
    have hb : normalizeTag T t ≠ "" := h t (by simp)
    intro u hu
    rw [uniqueTags_concat, List.map_append, List.mem_append]
    rcases List.mem_append.mp hu with hu | hu
    · exact Or.inl (ih2 u hu)
    · rw [List.mem_singleton] at hu
      subst hu
      by_cases hm : normalizeTag T u ∈ pre.map (normalizeTag T)
      · obtain ⟨v, hv, hvu⟩ := List.mem_map.mp hm
        exact Or.inl (hvu ▸ ih2 v hv)
      · right
        simp [hb, hm]

/-! ## The record of `GetNoteInfo` -/

theorem lookup_set (m : GoMap) (k k2 : String) (v : Value) :
    (m.set k v).get? k2 = if k2 = k then some v else m.get? k2 := by
  unfold GoMap.set GoMap.get?
  induction m with
  | nil =>
    by_cases h : k2 = k
    · simp [List.lookup, h]
    · have : (k2 == k) = false := by simpa using h
      simp [List.lookup, h, this]
  | cons e m ih =>
    obtain ⟨a, b⟩ := e
    by_cases ha : a = k
    · subst ha
      by_cases h : k2 = a
      · simpa [List.filter, h] using ih
      · simp only [List.filter, bne_self_eq_false]
        have : (k2 == a) = false := by simpa using h
        rw [ih, if_neg h, List.lookup, this, if_neg h]
    · have hf : ((a, b).1 != k) = true := by simpa using ha
      simp only [List.filter, hf, List.cons_append, List.lookup]
      by_cases h2 : k2 = a
      · subst h2
        simp [ha]
      · have : (k2 == a) = false := by simpa using h2
        rw [this]
        exact ih

theorem lookup_empty (k : String) : GoMap.get? [] k = none := rfl

/-- What a successful `GetNoteInfo` call has read and what its record holds under
the keys `title`, `tags`, `links` and `backlinks`. -/
theorem GetNoteInfo_ok (E : Env) (note : NoteManager) (params : InfoParams) (r : GoMap)
    (h : (GetNoteInfo E note params).ret = .ok r) :
    ∃ content, note.GetContents params.VaultPath params.FilePath = .ok content ∧
      r.get? "title" =
        some (.str (resolveTitle (E.text.ExtractFrontmatter content).1 params.FilePath)) ∧
      r.get? "tags" =
        (if params.IncludeTags then
          some (.strs (uniqueTags E.tables
            (frontmatterTags (E.text.ExtractFrontmatter content).1 ++
              inlineTags E.text content)))
        else none) ∧
      r.get? "links" =
        (if params.IncludeLinks then
          match getLinksInfo E note params.VaultPath params.FilePath content with
          | .ok lb => some (.strs lb.1)
          | .error _ => none
        else none) ∧
      r.get? "backlinks" =
        (if params.IncludeLinks then
          match getLinksInfo E note params.VaultPath params.FilePath content with
          | .ok lb => some (.strs lb.2)
          | .error _ => none
        else none) := by
  unfold GetNoteInfo at h
  simp only [] at h
  split at h
  · simp at h
  · split at h
    · simp at h
    · split at h
      · simp at h
      · rename_i content hcontent
        refine ⟨content, hcontent, ?_⟩
        cases hfm : (E.text.ExtractFrontmatter content).1 <;>
        cases hT : params.IncludeTags <;>
        cases hL : params.IncludeLinks <;>
        cases hg : getLinksInfo E note params.VaultPath params.FilePath content <;>
        simp only [hfm, hT, hL, hg] at h ⊢ <;>
        simp at h <;>
        subst h <;>
        simp [lookup_set, lookup_empty]

/-- Claim C1. For a list of tags none of which is blank, `uniqueTags` returns exactly
the first occurrence of every normalized form, in input order and in the original
spelling: the result is the list of first occurrences, a sublist of the input, free
of repeated normalized forms, and it represents the normalized form of every input
tag; `["Test", "test", "TAG1", "tag1"]` gives `["Test", "TAG1"]`.  In `GetNoteInfo`
the input is the frontmatter tags followed by the cleaned inline hashtags. -/
theorem uniqueTags_first_occurrences (T : unicode.CaseTables) (tags : List String)
    (hblank : ∀ t ∈ tags, normalizeTag T t ≠ "") :
    uniqueTags T tags = firstOccurrences (normalizeTag T) tags ∧
    (uniqueTags T tags).Sublist tags ∧
    ((uniqueTags T tags).map (normalizeTag T)).Nodup ∧
    (∀ t ∈ tags, normalizeTag T t ∈ (uniqueTags T tags).map (normalizeTag T)) ∧
    uniqueTags T ["Test", "test", "TAG1", "tag1"] = ["Test", "TAG1"] ∧
    (∀ (E : Env) (note : NoteManager) (params : InfoParams) (r : GoMap),
      params.IncludeTags = true → (GetNoteInfo E note params).ret = .ok r →
      ∃ content, note.GetContents params.VaultPath params.FilePath = .ok content ∧
        r.get? "tags" = some (.strs (uniqueTags E.tables
          (frontmatterTags (E.text.ExtractFrontmatter content).1 ++
            (E.text.ExtractHashtags content).map
              (fun tag => strings.TrimSpace (strings.TrimPrefix tag "#")))))) := by
  refine ⟨uniqueTags_eq_firstOccurrences T tags hblank, uniqueTags_sublist T tags,
    uniqueTags_nodup T tags, uniqueTags_covers T tags hblank, rfl, ?_⟩
  intro E note params r hT hr
  obtain ⟨content, hc, -, htags, -, -⟩ := GetNoteInfo_ok E note params r hr
  refine ⟨content, hc, ?_⟩
  rw [htags, if_pos hT]
  rfl

/-- Witness for C1: the tag list of the specification's example. -/
theorem uniqueTags_first_occurrences_witness :
    (∀ t ∈ ["Test", "test", "TAG1", "tag1"], normalizeTag unicode.asciiTables t ≠ "") ∧
    uniqueTags unicode.asciiTables ["Test", "test", "TAG1", "tag1"] =
      firstOccurrences (normalizeTag unicode.asciiTables) ["Test", "test", "TAG1", "tag1"] ∧
    firstOccurrences (normalizeTag unicode.asciiTables) ["Test", "test", "TAG1", "tag1"] =
      ["Test", "TAG1"] :=
  ⟨by decide,
    (uniqueTags_first_occurrences unicode.asciiTables ["Test", "test", "TAG1", "tag1"]
      (by decide)).1,
    by decide⟩

/-! ## `getLinksInfo` -/

theorem linksToTarget_eq_any (T : unicode.CaseTables) (fileName : String)
    (links : List String) :
    linksToTarget T fileName links =
      links.any (fun link =>
        strings.EqualFold T (strings.TrimSuffix link (filepath.Ext link)) fileName) := by
  induction links with
  | nil => rfl
  | cons link rest ih =>
    unfold linksToTarget
    simp only [List.any_cons]
    cases h : strings.EqualFold T (strings.TrimSuffix link (filepath.Ext link)) fileName
    · simpa using ih
    · simp

theorem backlinkStep_eq (E : Env) (note : NoteManager) (vaultPath filePath : String)
    (backlinks : List String) (notePath : String) :
    backlinkStep E note vaultPath filePath
        (strings.TrimSuffix (filepath.Base filePath) (filepath.Ext filePath)) backlinks notePath =
      backlinks ++ (if isBacklink E note vaultPath filePath notePath then [notePath] else []) := by
  unfold backlinkStep isBacklink
  by_cases hp : notePath = filePath
  · simp [hp]
  · have hne : (notePath != filePath) = true := by simpa using hp
    rw [if_neg hp, hne, Bool.true_and]
    cases note.GetContents vaultPath notePath with
    | error e => simp
    | ok c =>
      simp only [linksToTarget_eq_any]
      split <;> simp_all

theorem backlinks_foldl (E : Env) (note : NoteManager) (vaultPath filePath : String)
    (allNotes acc : List String) :
    allNotes.foldl (backlinkStep E note vaultPath filePath
        (strings.TrimSuffix (filepath.Base filePath) (filepath.Ext filePath))) acc =
      acc ++ allNotes.filter (isBacklink E note vaultPath filePath) := by
  induction allNotes generalizing acc with
  | nil => simp
  | cons p rest ih =>
    rw [List.foldl_cons, ih, backlinkStep_eq, List.filter_cons]
    split <;> simp

/-- The result of `getLinksInfo` in closed form. -/
theorem getLinksInfo_eq (E : Env) (note : NoteManager) (vaultPath filePath content : String) :
    getLinksInfo E note vaultPath filePath content =
      match note.GetNotesList vaultPath with
      | .error err => .error err
      | .ok allNotes =>
        .ok (E.text.ExtractWikilinks content,
          allNotes.filter (isBacklink E note vaultPath filePath)) := by
  unfold getLinksInfo
  cases note.GetNotesList vaultPath with
  | error err => rfl
  | ok allNotes => simp only [backlinks_foldl, List.nil_append]

theorem isBacklink_iff (E : Env) (note : NoteManager) (vaultPath filePath notePath : String) :
    isBacklink E note vaultPath filePath notePath = true ↔
      notePath ≠ filePath ∧
      ∃ noteContent, note.GetContents vaultPath notePath = .ok noteContent ∧
        ∃ link ∈ E.text.ExtractWikilinks noteContent,
          strings.EqualFold E.tables (strings.TrimSuffix link (filepath.Ext link))
            (strings.TrimSuffix (filepath.Base filePath) (filepath.Ext filePath)) = true := by
  unfold isBacklink
  cases note.GetContents vaultPath notePath with
  | error e => simp
  | ok c => simp [List.any_eq_true]

/-- Claim C2, as stated, fails.  With target `test.md`, a note `other.md` whose only
wikilink is `test.md` is returned as a backlink, although the name `test.md` is not
equal, ignoring case, to the stem `test`: the code removes the link's file extension
before it compares. -/
theorem getLinksInfo_backlinks_counterexample :
    getLinksInfo sampleEnv
        (sampleNotes (.ok ["test.md", "other.md"])
          [("test.md", sampleContent), ("other.md", "[[test.md]]")])
        "/vault/path" "test.md" sampleContent = .ok (["linked-note"], ["other.md"]) ∧
    ["test.md", "other.md"].filter
        (claimedBacklink sampleEnv
          (sampleNotes (.ok ["test.md", "other.md"])
            [("test.md", sampleContent), ("other.md", "[[test.md]]")])
          "/vault/path" "test.md") = [] :=
  ⟨by rfl, by decide⟩

/-- Cutting off the empty suffix changes nothing. -/
theorem TrimSuffix_empty (s : String) : strings.TrimSuffix s "" = s := by
  unfold strings.TrimSuffix
  simp only [List.isSuffixOf, List.reverse_nil, List.isPrefixOf, if_true, List.length_nil,
    Nat.sub_zero, List.take_length]

/-- A filtered list keeps exactly the occurrences of its own members. -/
theorem filter_mem_filter {α : Type} [DecidableEq α] (P : α → Bool) (l : List α) :
    l.filter P = l.filter (fun p => decide (p ∈ l.filter P)) := by
  apply List.filter_congr
  intro p hp
  by_cases h : P p = true
  · simp [List.mem_filter, hp, h]
  · simp [List.mem_filter, hp, h]

/-- Claim C2, amended.  When the note list can be enumerated, `getLinksInfo` succeeds
and its backlinks are listed note paths in listing order (a path is kept at every
place where it is listed, or at none).  Every backlink differs from the target path,
can be read, and has a wikilink that is equal, ignoring case, to the target's
filename stem, as written or with the link's extension removed.  Conversely every
listed note other than the target that can be read is a backlink as soon as one of
its wikilinks names the target by its stem (a link without extension, equal to the
stem ignoring case) or by its file name (a link with the target's extension, equal to
the stem ignoring case once that extension is removed).  An unreadable note is left
out and does not fail the call.  Nothing is said about a link whose last dot does
not start the target's extension. -/
theorem getLinksInfo_backlinks (E : Env) (note : NoteManager)
    (vaultPath filePath content : String) (allNotes : List String)
    (hlist : note.GetNotesList vaultPath = .ok allNotes) :
    ∃ backlinks,
      getLinksInfo E note vaultPath filePath content =
        .ok (E.text.ExtractWikilinks content, backlinks) ∧
      backlinks = allNotes.filter (fun notePath => decide (notePath ∈ backlinks)) ∧
      (∀ notePath ∈ backlinks,
        notePath ≠ filePath ∧
        ∃ noteContent, note.GetContents vaultPath notePath = .ok noteContent ∧
          ∃ link ∈ E.text.ExtractWikilinks noteContent,
            strings.EqualFold E.tables link
              (strings.TrimSuffix (filepath.Base filePath) (filepath.Ext filePath)) = true ∨
            strings.EqualFold E.tables (strings.TrimSuffix link (filepath.Ext link))
              (strings.TrimSuffix (filepath.Base filePath) (filepath.Ext filePath)) = true) ∧
      (∀ notePath ∈ allNotes, notePath ≠ filePath →
        ∀ noteContent, note.GetContents vaultPath notePath = .ok noteContent →
        ∀ link ∈ E.text.ExtractWikilinks noteContent,
          ((filepath.Ext link = "" ∧
            strings.EqualFold E.tables link
              (strings.TrimSuffix (filepath.Base filePath) (filepath.Ext filePath)) = true) ∨
           (strings.EqualFold E.tables (filepath.Ext link) (filepath.Ext filePath) = true ∧
            strings.EqualFold E.tables (strings.TrimSuffix link (filepath.Ext link))
              (strings.TrimSuffix (filepath.Base filePath) (filepath.Ext filePath)) = true)) →
          notePath ∈ backlinks) := by
  refine ⟨allNotes.filter (isBacklink E note vaultPath filePath), ?_, ?_, ?_, ?_⟩
  · rw [getLinksInfo_eq, hlist]
  · exact filter_mem_filter _ _
  · intro notePath hmem
    obtain ⟨hne, c, hc, link, hl, hfold⟩ :=
      (isBacklink_iff E note vaultPath filePath notePath).mp (List.mem_filter.mp hmem).2
    exact ⟨hne, c, hc, link, hl, Or.inr hfold⟩
  · intro notePath hmem hne c hc link hl hcase
    refine List.mem_filter.mpr ⟨hmem, (isBacklink_iff E note vaultPath filePath notePath).mpr
      ⟨hne, c, hc, link, hl, ?_⟩⟩
    rcases hcase with ⟨hext, hfold⟩ | ⟨-, hfold⟩
    · rw [hext, TrimSuffix_empty]
      exact hfold
    · exact hfold

/-- Witness for C2 (amended): the vault of `TestGetNoteInfo/with links`, with a note
that links to the file name `test.md` and an unreadable note. -/
theorem getLinksInfo_backlinks_witness :
    (sampleNotes (.ok ["test.md", "other.md", "file.md", "gone.md"])
        [("test.md", sampleContent), ("other.md", "[[test]]"),
         ("file.md", "[[test.md]]")]).GetNotesList "/vault/path" =
      .ok ["test.md", "other.md", "file.md", "gone.md"] ∧
    ∃ backlinks,
      getLinksInfo sampleEnv
          (sampleNotes (.ok ["test.md", "other.md", "file.md", "gone.md"])
            [("test.md", sampleContent), ("other.md", "[[test]]"), ("file.md", "[[test.md]]")])
          "/vault/path" "test.md" sampleContent = .ok (["linked-note"], backlinks) ∧
      "other.md" ∈ backlinks ∧ "file.md" ∈ backlinks ∧
      "gone.md" ∉ backlinks ∧ "test.md" ∉ backlinks := by
  obtain ⟨backlinks, hret, -, hsound, hcomplete⟩ :=
    getLinksInfo_backlinks sampleEnv
      (sampleNotes (.ok ["test.md", "other.md", "file.md", "gone.md"])
        [("test.md", sampleContent), ("other.md", "[[test]]"), ("file.md", "[[test.md]]")])
      "/vault/path" "test.md" sampleContent ["test.md", "other.md", "file.md", "gone.md"] rfl
  refine ⟨rfl, backlinks, hret, ?_, ?_, ?_, ?_⟩
  · exact hcomplete "other.md" (by decide) (by decide) "[[test]]" rfl "test" (by decide)
      (Or.inl ⟨by decide, by decide⟩)
  · exact hcomplete "file.md" (by decide) (by decide) "[[test.md]]" rfl "test.md" (by decide)
      (Or.inr ⟨by decide, by decide⟩)
  · intro h
    obtain ⟨-, c, hc, -⟩ := hsound "gone.md" h
    cases hc
  · intro h
    exact (hsound "test.md" h).1 rfl

/-- A run with a dot in the stem: the target `v1.2.md` has the stem
`v1.2`, the wikilink `v1.2` of `other.md` is cut to `v1` by `filepath.Ext`, and
`other.md`, which links to the target by its exact stem, is not returned, against the
comment `Find backlinks - notes that link to this note`. -/
theorem getLinksInfo_dotted_stem :
    strings.TrimSuffix (filepath.Base "v1.2.md") (filepath.Ext "v1.2.md") = "v1.2" ∧
    strings.TrimSuffix "v1.2" (filepath.Ext "v1.2") = "v1" ∧
    getLinksInfo sampleEnv
        (sampleNotes (.ok ["v1.2.md", "other.md"]) [("v1.2.md", ""), ("other.md", "[[v1.2]]")])
        "/vault/path" "v1.2.md" "" = .ok ([], []) :=
  ⟨by decide, by decide, by rfl⟩

/-- Claim C3. The backlinks that `getLinksInfo` computes never contain the target's own
path, whatever the target's content links to; the same holds for the `backlinks`
entry of the record of `GetNoteInfo`. -/
theorem backlinks_exclude_target :
    (∀ (E : Env) (note : NoteManager) (vaultPath filePath content : String)
        (r : List String × List String),
        getLinksInfo E note vaultPath filePath content = .ok r → filePath ∉ r.2) ∧
    (∀ (E : Env) (note : NoteManager) (params : InfoParams) (rec : GoMap)
        (backlinks : List String),
        (GetNoteInfo E note params).ret = .ok rec →
        rec.get? "backlinks" = some (.strs backlinks) → params.FilePath ∉ backlinks) := by
  have key : ∀ (E : Env) (note : NoteManager) (vaultPath filePath content : String)
      (r : List String × List String),
      getLinksInfo E note vaultPath filePath content = .ok r → filePath ∉ r.2 := by
    intro E note vaultPath filePath content r h hmem
    rw [getLinksInfo_eq] at h
    cases hl : note.GetNotesList vaultPath with
    | error err => rw [hl] at h; cases h
    | ok allNotes =>
      rw [hl] at h
      cases h
      have := (List.mem_filter.mp hmem).2
      exact ((isBacklink_iff E note vaultPath filePath filePath).mp this).1 rfl
  refine ⟨key, ?_⟩
  intro E note params rec backlinks hr hb
  obtain ⟨content, -, -, -, -, hback⟩ := GetNoteInfo_ok E note params rec hr
  rw [hb] at hback
  cases hL : params.IncludeLinks with
  | false => simp [hL] at hback
  | true =>
    simp only [hL, if_true] at hback
    cases hg : getLinksInfo E note params.VaultPath params.FilePath content with
    | error err => simp [hg] at hback
    | ok lb =>
      simp only [hg, Option.some.injEq, Value.strs.injEq] at hback
      rw [hback]
      exact key E note params.VaultPath params.FilePath content lb hg

/-- Witness for C3: a target note that links to itself. -/
theorem backlinks_exclude_target_witness :
    getLinksInfo sampleEnv
        (sampleNotes (.ok ["test.md", "other.md"]) [("test.md", "[[test]]"), ("other.md", "[[test]]")])
        "/vault/path" "test.md" "[[test]]" = .ok (["test"], ["other.md"]) ∧
    "test.md" ∉ (["test"], ["other.md"]).2 :=
  ⟨by rfl,
    backlinks_exclude_target.1 sampleEnv
      (sampleNotes (.ok ["test.md", "other.md"]) [("test.md", "[[test]]"), ("other.md", "[[test]]")])
      "/vault/path" "test.md" "[[test]]" (["test"], ["other.md"]) (by rfl)⟩

/-! ## `GetNoteInfo`: title, optional keys, enumeration failure -/

/-- Claim C4, as stated, fails.  The note `plans.md` has the frontmatter field
`title: 2024`, which is present and not empty but not a string; the record's title
is the file name stem `plans`, not the field. -/
theorem GetNoteInfo_title_counterexample :
    ((sampleText.ExtractFrontmatter "---\ntitle: 2024\n---\nPlans").1.bind
        (fun fm => fm.get? "title")) = some (.int 2024) ∧
    (GetNoteInfo sampleEnv
        (sampleNotes (.ok ["plans.md"]) [("plans.md", "---\ntitle: 2024\n---\nPlans")])
        ⟨"plans.md", false, false, "/vault/path"⟩).field "title" = some (.str "plans") :=
  ⟨by rfl, by rfl⟩

/-- Claim C4, amended.  In the record of a successful `GetNoteInfo` call the title is
the frontmatter `title` field whenever that field is present, holds a string and the
string is not empty; in every other case (no frontmatter, no `title` field, a field
that is not a string, an empty string) it is the file name of the note path with its
extension removed.  Frontmatter title `Test Note` on `other.md` gives `Test Note`;
`my-note.md` without frontmatter gives `my-note`. -/
theorem GetNoteInfo_title (E : Env) (note : NoteManager) (params : InfoParams) (r : GoMap)
    (content : String) (h : (GetNoteInfo E note params).ret = .ok r)
    (hc : note.GetContents params.VaultPath params.FilePath = .ok content) :
    (∀ fm t, (E.text.ExtractFrontmatter content).1 = some fm →
      fm.get? "title" = some (.str t) → t ≠ "" → r.get? "title" = some (.str t)) ∧
    (((E.text.ExtractFrontmatter content).1 = none ∨
      ∃ fm, (E.text.ExtractFrontmatter content).1 = some fm ∧
        ∀ t, fm.get? "title" = some (.str t) → t = "") →
      r.get? "title" = some (.str
        (strings.TrimSuffix (filepath.Base params.FilePath) (filepath.Ext params.FilePath)))) ∧
    (GetNoteInfo sampleEnv (sampleNotes (.ok ["other.md"]) [("other.md", sampleContent)])
        ⟨"other.md", false, false, "/vault/path"⟩).field "title" = some (.str "Test Note") ∧
    (GetNoteInfo sampleEnv (sampleNotes (.ok ["my-note.md"]) [("my-note.md", "Just content")])
        ⟨"my-note.md", false, false, "/vault/path"⟩).field "title" = some (.str "my-note") := by
  obtain ⟨content2, hc2, htitle, -⟩ := GetNoteInfo_ok E note params r h
  rw [hc] at hc2
  cases hc2
  refine ⟨?_, ?_, by rfl, by rfl⟩
  · intro fm t hfm ht hne
    rw [htitle, hfm]
    simp [resolveTitle, ht, hne]
  · intro hcase
    rw [htitle]
    rcases hcase with hnone | ⟨fm, hfm, hall⟩
    · rw [hnone]
      simp [resolveTitle]
    · rw [hfm]
      cases hg : fm.get? "title" with
      | none => simp [resolveTitle, hg]
      | some v =>
        cases v with
        | str t =>
          have ht := hall t hg
          subst ht
          simp [resolveTitle, hg]
        | _ => simp [resolveTitle, hg]

/-- Witness for C4 (amended): the first run of `info_test.go`. -/
theorem GetNoteInfo_title_witness :
    (GetNoteInfo sampleEnv (sampleNotes (.ok ["test.md"]) [("test.md", sampleContent)])
        ⟨"test.md", false, false, "/vault/path"⟩).ret =
      .ok (GetNoteInfo sampleEnv (sampleNotes (.ok ["test.md"]) [("test.md", sampleContent)])
        ⟨"test.md", false, false, "/vault/path"⟩).record ∧
    (GetNoteInfo sampleEnv (sampleNotes (.ok ["test.md"]) [("test.md", sampleContent)])
        ⟨"test.md", false, false, "/vault/path"⟩).record.get? "title" =
      some (.str "Test Note") :=
  ⟨by rfl,
    (GetNoteInfo_title sampleEnv (sampleNotes (.ok ["test.md"]) [("test.md", sampleContent)])
      ⟨"test.md", false, false, "/vault/path"⟩ _ sampleContent (by rfl) (by rfl)).1
        _ "Test Note" (by rfl) (by rfl) (by decide)⟩

/-- Claim C5. The record of a successful `GetNoteInfo` call has a `tags` entry only if
`IncludeTags` was set and `links` and `backlinks` entries only if `IncludeLinks` was
set; with neither flag set none of the three keys exists. -/
theorem GetNoteInfo_optional_keys (E : Env) (note : NoteManager) (params : InfoParams)
    (r : GoMap) (h : (GetNoteInfo E note params).ret = .ok r) :
    ((r.get? "tags").isSome = true → params.IncludeTags = true) ∧
    ((r.get? "links").isSome = true → params.IncludeLinks = true) ∧
    ((r.get? "backlinks").isSome = true → params.IncludeLinks = true) ∧
    (params.IncludeTags = false → params.IncludeLinks = false →
      r.get? "tags" = none ∧ r.get? "links" = none ∧ r.get? "backlinks" = none) := by
  obtain ⟨content, -, -, htags, hlinks, hback⟩ := GetNoteInfo_ok E note params r h
  rw [htags, hlinks, hback]
  cases params.IncludeTags <;> cases params.IncludeLinks <;> simp

/-- Witness for C5: the run without tags and links of `info_test.go`. -/
theorem GetNoteInfo_optional_keys_witness :
    (GetNoteInfo sampleEnv (sampleNotes (.ok ["test.md"]) [("test.md", sampleContent)])
        ⟨"test.md", false, false, "/vault/path"⟩).ret =
      .ok (GetNoteInfo sampleEnv (sampleNotes (.ok ["test.md"]) [("test.md", sampleContent)])
        ⟨"test.md", false, false, "/vault/path"⟩).record ∧
    (GetNoteInfo sampleEnv (sampleNotes (.ok ["test.md"]) [("test.md", sampleContent)])
        ⟨"test.md", false, false, "/vault/path"⟩).record.get? "tags" = none :=
  ⟨by rfl,
    ((GetNoteInfo_optional_keys sampleEnv
      (sampleNotes (.ok ["test.md"]) [("test.md", sampleContent)])
      ⟨"test.md", false, false, "/vault/path"⟩ _ (by rfl)).2.2.2 rfl rfl).1⟩

/-- A call of `GetNoteInfo` whose file can be stat'ed, sized and read returns a record. -/
theorem GetNoteInfo_succeeds (E : Env) (note : NoteManager) (params : InfoParams)
    (fileInfo : FileInfo) (sizeHuman content : String)
    (hstat : E.osStat (E.Join params.VaultPath params.FilePath) = .ok fileInfo)
    (hsize : humanizeSize fileInfo.Size = some sizeHuman)
    (hread : note.GetContents params.VaultPath params.FilePath = .ok content) :
    ∃ r, (GetNoteInfo E note params).ret = .ok r := by
  unfold GetNoteInfo
  simp only [hstat, hsize, hread]
  split
  · split <;> exact ⟨_, rfl⟩
  · exact ⟨_, rfl⟩

/-- When the note list cannot be enumerated and `Debug` is on, a successful call
with `IncludeLinks` ends its standard-error output with the warning. -/
theorem GetNoteInfo_warns (E : Env) (note : NoteManager) (params : InfoParams)
    (err : String) (r : GoMap)
    (hlist : note.GetNotesList params.VaultPath = .error err)
    (hlinks : params.IncludeLinks = true) (hdebug : E.Debug = true)
    (h : (GetNoteInfo E note params).ret = .ok r) :
    "Warning: Error getting links: " ++ err ++ "\n" ∈ (GetNoteInfo E note params).stderr := by
  have hg : ∀ content, getLinksInfo E note params.VaultPath params.FilePath content =
      .error err := by
    intro content
    rw [getLinksInfo_eq, hlist]
  unfold GetNoteInfo at h ⊢
  simp only [] at h ⊢
  split
  · rename_i heq
    simp [heq] at h
  · rename_i heq
    simp only [heq] at h
    split
    · rename_i heq2
      simp [heq2] at h
    · rename_i heq2
      simp only [heq2] at h
      split
      · rename_i heq3
        simp [heq3] at h
      · simp [hlinks, hg, hdebug]

/-- Claim C9, as stated, fails.  Links are requested, `GetNotesList` fails, and
`GetNoteInfo` nevertheless returns a record with a nil error. -/
theorem GetNoteInfo_enumeration_counterexample :
    (sampleNotes (.error "cannot list notes") [("test.md", sampleContent)]).GetNotesList
        "/vault/path" = .error "cannot list notes" ∧
    (GetNoteInfo sampleEnv
        (sampleNotes (.error "cannot list notes") [("test.md", sampleContent)])
        ⟨"test.md", false, true, "/vault/path"⟩).succeeded = true ∧
    (GetNoteInfo sampleEnv
        (sampleNotes (.error "cannot list notes") [("test.md", sampleContent)])
        ⟨"test.md", false, true, "/vault/path"⟩).field "title" = some (.str "Test Note") :=
  ⟨by rfl, by rfl, by rfl⟩

/-- Claim C9, amended.  When the note list cannot be enumerated, the failure is fatal
to the backlink computation (`getLinksInfo` returns the error), but `GetNoteInfo`
absorbs it: a call that can stat, size and read the note still returns a record,
every returned record lacks the `links` and `backlinks` entries, and with links
requested and `Debug` on a warning is written to standard error instead. -/
theorem GetNoteInfo_absorbs_enumeration_failure (E : Env) (note : NoteManager)
    (params : InfoParams) (err : String)
    (hlist : note.GetNotesList params.VaultPath = .error err) :
    (∀ content, getLinksInfo E note params.VaultPath params.FilePath content = .error err) ∧
    (∀ fileInfo sizeHuman content,
      E.osStat (E.Join params.VaultPath params.FilePath) = .ok fileInfo →
      humanizeSize fileInfo.Size = some sizeHuman →
      note.GetContents params.VaultPath params.FilePath = .ok content →
      ∃ r, (GetNoteInfo E note params).ret = .ok r) ∧
    (∀ r, (GetNoteInfo E note params).ret = .ok r →
      r.get? "links" = none ∧ r.get? "backlinks" = none ∧
      (params.IncludeLinks = true → E.Debug = true →
        "Warning: Error getting links: " ++ err ++ "\n" ∈ (GetNoteInfo E note params).stderr)) := by
  have hg : ∀ content, getLinksInfo E note params.VaultPath params.FilePath content =
      .error err := by
    intro content
    rw [getLinksInfo_eq, hlist]
  refine ⟨hg, ?_, ?_⟩
  · intro fileInfo sizeHuman content hstat hsize hread
    exact GetNoteInfo_succeeds E note params fileInfo sizeHuman content hstat hsize hread
  · intro r hr
    obtain ⟨content, -, -, -, hlinks, hback⟩ := GetNoteInfo_ok E note params r hr
    rw [hg content] at hlinks hback
    refine ⟨by simpa using hlinks, by simpa using hback, ?_⟩
    intro hL hD
    exact GetNoteInfo_warns E note params err r hlist hL hD hr

/-- Witness for C9 (amended): the sample note with a listing that fails. -/
theorem GetNoteInfo_absorbs_enumeration_failure_witness :
    (sampleNotes (.error "cannot list notes") [("test.md", sampleContent)]).GetNotesList
        "/vault/path" = .error "cannot list notes" ∧
    getLinksInfo sampleEnv
        (sampleNotes (.error "cannot list notes") [("test.md", sampleContent)])
        "/vault/path" "test.md" sampleContent = .error "cannot list notes" :=
  ⟨by rfl,
    (GetNoteInfo_absorbs_enumeration_failure sampleEnv
      (sampleNotes (.error "cannot list notes") [("test.md", sampleContent)])
      ⟨"test.md", false, true, "/vault/path"⟩ "cannot list notes" (by rfl)).1 sampleContent⟩

end actions

/-! ## `FuzzyMatch` -/

namespace obsidian

theorem containsAt_iff (s sub : List Char) :
    strings.containsAt s sub = true ↔ sub <:+: s := by
  induction s with
  | nil =>
    unfold strings.containsAt
    rw [List.isPrefixOf_iff_prefix]
    simp [List.prefix_nil, List.infix_nil]
  | cons c cs ih =>
    unfold strings.containsAt
    rw [Bool.or_eq_true, List.isPrefixOf_iff_prefix, ih, List.infix_cons_iff]

/-- Claim C6. `FuzzyMatch(query, candidate)` is true exactly when the query is not
empty and the lower-cased query occurs as a contiguous substring of the lower-cased
candidate; the empty query matches nothing, and `FuzzyMatch("test",
"folder/Test-File.md")` is true. -/
theorem FuzzyMatch_iff (T : unicode.CaseTables) (query candidate : String) :
    (FuzzyMatch T query candidate = true ↔
      query ≠ "" ∧ (strings.ToLower T query).data <:+: (strings.ToLower T candidate).data) ∧
    FuzzyMatch T "" candidate = false ∧
    FuzzyMatch T "test" "folder/Test-File.md" = true := by
  refine ⟨?_, by rfl, by rfl⟩
  unfold FuzzyMatch
  by_cases hq : query = ""
  · simp [hq]
  · simp only [hq, if_false, ne_eq, not_false_eq_true, true_and]
    unfold strings.Contains
    exact containsAt_iff _ _

end obsidian

namespace actions

open obsidian float64

/-! ## `ListFiles` -/

theorem foldl_filter_eq_filter_all {α β : Type} (m : β → α → Bool) (inputs : List β)
    (l : List α) :
    inputs.foldl (fun candidates input => candidates.filter (m input)) l =
      l.filter (fun p => inputs.all (fun input => m input p)) := by
  induction inputs generalizing l with
  | nil => simp
  | cons i rest ih =>
    rw [List.foldl_cons, ih, List.filter_filter]
    simp only [List.all_cons, Bool.and_comm]

/-- Claim C10. `ListFiles` returns exactly the notes of the listing that satisfy every
selection input, in listing order (the intersection, not the union).  Filtering by
path substring `folder` and tag `important` returns the notes whose path contains
`folder` and that carry the tag; a note with the tag whose path lacks `folder` is
excluded, and so is a note under `folder/` without the tag.  On the vault of
`TestListFiles_MultipleInputs` the result is `folder/test-note.md` alone (the
assertion of that test also expects `note1.md`, which has the tag but is not under
`folder`). -/
theorem ListFiles_intersection (E : Env) (note : NoteManager) (vaultPath : String)
    (inputs : List ListInput) (allNotes : List String)
    (hlist : note.GetNotesList vaultPath = .ok allNotes) :
    ListFiles E note vaultPath inputs =
      .ok (allNotes.filter (fun p =>
        inputs.all (fun input => inputMatches E note vaultPath input p))) ∧
    (∀ result, ListFiles E note vaultPath inputs = .ok result →
      ∀ p, p ∈ result ↔
        p ∈ allNotes ∧ ∀ input ∈ inputs, inputMatches E note vaultPath input p = true) ∧
    (∀ result,
      ListFiles E note vaultPath
        [⟨.InputTypeFile, "folder"⟩, ⟨.InputTypeTag, "important"⟩] = .ok result →
      ∀ p, p ∈ result ↔
        p ∈ allNotes ∧
        strings.Contains (strings.ToLower E.tables p) (strings.ToLower E.tables "folder") = true ∧
        ∃ content, note.GetContents vaultPath p = .ok content ∧
          normalizeTag E.tables "important" ∈ noteTags E content) ∧
    ListFiles sampleEnv
        (sampleNotes (.ok ["note1.md", "folder/test-note.md", "folder/other.md"])
          [("note1.md", "Content with #important tag"),
           ("folder/test-note.md", "---\ntags: [test, important]\n---\nContent"),
           ("folder/other.md", "Just content")])
        "/path/to/vault" [⟨.InputTypeFile, "folder"⟩, ⟨.InputTypeTag, "important"⟩] =
      .ok ["folder/test-note.md"] := by
  have hall : ∀ ins, ListFiles E note vaultPath ins =
      .ok (allNotes.filter (fun p =>
        ins.all (fun input => inputMatches E note vaultPath input p))) := by
    intro ins
    unfold ListFiles
    rw [hlist]
    simp only [foldl_filter_eq_filter_all]
  refine ⟨hall inputs, ?_, ?_, by rfl⟩
  · intro result hres p
    rw [hall inputs] at hres
    cases hres
    simp [List.mem_filter, List.all_eq_true]
  · intro result hres p
    rw [hall] at hres
    cases hres
    simp only [List.mem_filter, List.all_cons, List.all_nil, Bool.and_true, Bool.and_eq_true]
    unfold inputMatches
    simp only
    cases note.GetContents vaultPath p with
    | error e => simp
    | ok c => simp

/-- Witness for C10: the vault of `TestListFiles_MultipleInputs`. -/
theorem ListFiles_intersection_witness :
    (sampleNotes (.ok ["note1.md", "folder/test-note.md", "folder/other.md"])
        [("note1.md", "Content with #important tag"),
         ("folder/test-note.md", "---\ntags: [test, important]\n---\nContent"),
         ("folder/other.md", "Just content")]).GetNotesList "/path/to/vault" =
      .ok ["note1.md", "folder/test-note.md", "folder/other.md"] ∧
    ListFiles sampleEnv
        (sampleNotes (.ok ["note1.md", "folder/test-note.md", "folder/other.md"])
          [("note1.md", "Content with #important tag"),
           ("folder/test-note.md", "---\ntags: [test, important]\n---\nContent"),
           ("folder/other.md", "Just content")])
        "/path/to/vault" [⟨.InputTypeTag, "important"⟩] =
      .ok ["note1.md", "folder/test-note.md"] :=
  ⟨by rfl,
    (ListFiles_intersection sampleEnv
      (sampleNotes (.ok ["note1.md", "folder/test-note.md", "folder/other.md"])
        [("note1.md", "Content with #important tag"),
         ("folder/test-note.md", "---\ntags: [test, important]\n---\nContent"),
         ("folder/other.md", "Just content")])
      "/path/to/vault" [⟨.InputTypeTag, "important"⟩]
      ["note1.md", "folder/test-note.md", "folder/other.md"] (by rfl)).1.trans (by rfl)⟩

/-! ## `humanizeSize` and `calculateReadingTime` -/

theorem wrapInt64_id (x : Int) (h0 : -2 ^ 63 ≤ x) (h1 : x < 2 ^ 63) : wrapInt64 x = x := by
  unfold wrapInt64
  omega

theorem humanizeLoop_spec (k : Nat) : ∀ (fuel n exp : Nat), n ≤ fuel →
    (k = 0 ∨ 1024 ^ k ≤ n) → n < 1024 ^ (k + 1) → exp + k ≤ 5 →
    humanizeLoop fuel n (1024 ^ (exp + 1)) exp = (1024 ^ (exp + k + 1), exp + k) := by
  induction k with
  | zero =>
    intro fuel n exp _ _ hlt _
    have hn : ¬ n ≥ 1024 := by simpa using hlt
    cases fuel with
    | zero => rfl
    | succ f => unfold humanizeLoop; rw [if_neg hn]; rfl
  | succ k ih =>
    intro fuel n exp hf hlo hhi hk
    have hlo : 1024 ^ (k + 1) ≤ n := by
      rcases hlo with h | h
      · omega
      · exact h
    have h1024 : 1024 ≤ n := by
      calc 1024 = 1024 ^ 1 := by norm_num
        _ ≤ 1024 ^ (k + 1) := Nat.pow_le_pow_right (by norm_num) (by omega)
        _ ≤ n := hlo
    cases fuel with
    | zero => omega
    | succ f =>
      unfold humanizeLoop
      rw [if_pos h1024]
      have hw : wrapInt64 (1024 ^ (exp + 1) * 1024) = 1024 ^ (exp + 1 + 1) := by
        have hpow : (1024 : ℤ) ^ (exp + 1) * 1024 = 1024 ^ (exp + 1 + 1) := by
          rw [pow_succ (1024 : ℤ) (exp + 1)]
        have hle : (1024 : ℤ) ^ (exp + 1 + 1) ≤ 1024 ^ 6 :=
          pow_le_pow_right₀ (by norm_num) (by omega)
        have hpos : (0 : ℤ) ≤ 1024 ^ (exp + 1 + 1) := by positivity
        rw [hpow, wrapInt64_id]
        · linarith
        · calc (1024 : ℤ) ^ (exp + 1 + 1) ≤ 1024 ^ 6 := hle
            _ < 2 ^ 63 := by norm_num
      rw [hw]
      have hdiv : n / 1024 < n := Nat.div_lt_self (by omega) (by norm_num)
      have := ih f (n / 1024) (exp + 1) (by omega)
        (Or.inr (by rw [Nat.le_div_iff_mul_le (by norm_num)]; rw [pow_succ] at hlo; exact hlo))
        (by rw [Nat.div_lt_iff_lt_mul (by norm_num)]; rw [pow_succ] at hhi; exact hhi)
        (by omega)
      rw [this, show exp + 1 + k = exp + (k + 1) by omega]

theorem empty_append (s : String) : "" ++ s = s := by
  apply String.ext
  simp

theorem toString_nonneg (n : ℤ) (h : 0 ≤ n) : toString n = toString n.toNat := by
  cases n with
  | ofNat m => rfl
  | negSucc m => exact absurd h (by simp [Int.negSucc_lt_zero])

theorem unit_letter (k : ℕ) (hk : k ≤ 5) : ∃ c, "KMGTPE".data.get? k = some c := by
  interval_cases k <;> exact ⟨_, rfl⟩

theorem humanizeSize_small (n : ℤ) (h0 : 0 ≤ n) (h1 : n < 1024) :
    humanizeSize n = some (toString n.toNat ++ " B") := by
  unfold humanizeSize
  rw [if_pos h1]
  unfold fmt.decimal
  rw [toString_nonneg n h0]

theorem humanizeSize_scaled (n : ℤ) (k : ℕ) (hlo : 1024 ^ (k + 1) ≤ n)
    (hhi : n < 1024 ^ (k + 2)) (h63 : n < 2 ^ 63) :
    ∃ c, "KMGTPE".data.get? k = some c ∧
      humanizeSize n =
        some (fmt.fixed1 (float64.div (float64.ofInt n) (1024 ^ (k + 1))) ++ " " ++
          String.singleton c ++ "B") := by
  have hk : k ≤ 5 := by
    by_contra hk
    have : (1024 : ℤ) ^ 7 ≤ 1024 ^ (k + 1) := pow_le_pow_right₀ (by norm_num) (by omega)
    have : (2 : ℤ) ^ 63 < 1024 ^ 7 := by norm_num
    linarith
  have h1024 : (1024 : ℤ) ≤ n := by
    calc (1024 : ℤ) = 1024 ^ 1 := by norm_num
      _ ≤ 1024 ^ (k + 1) := pow_le_pow_right₀ (by norm_num) (by omega)
      _ ≤ n := hlo
  obtain ⟨N, rfl⟩ := Int.eq_ofNat_of_zero_le (by linarith : (0 : ℤ) ≤ n)
  have hlo' : 1024 ^ (k + 1) ≤ N := by exact_mod_cast hlo
  have hhi' : N < 1024 ^ (k + 2) := by exact_mod_cast hhi
  obtain ⟨c, hc⟩ := unit_letter k hk
  refine ⟨c, hc, ?_⟩
  unfold humanizeSize
  rw [if_neg (by omega)]
  simp only [Int.toNat_ofNat]
  have hloop := humanizeLoop_spec k (N / 1024) (N / 1024) 0 (le_refl _)
    (Or.inr (by rw [Nat.le_div_iff_mul_le (by norm_num)]; rw [pow_succ] at hlo'; exact hlo'))
    (by rw [Nat.div_lt_iff_lt_mul (by norm_num)]; rw [pow_succ] at hhi'; exact hhi')
    (by omega)
  simp only [zero_add, pow_one] at hloop
  rw [hloop]
  simp only [hc]
  rw [ofInt_pow1024 (k + 1) (by omega)]

/-- Facts about `x = nearest (w / 200)` for `1 ≤ w < 20 * 2^48`. -/
theorem minutes_bounds (w : ℕ) (h1 : 1 ≤ w) (h2 : w < 20 * 2 ^ 48) :
    (w : ℚ) / 200 ≠ 0 ∧ -8 ≤ binade ((w : ℚ) / 200) ∧ binade ((w : ℚ) / 200) < 45 ∧
    |nearest ((w : ℚ) / 200) - (w : ℚ) / 200| ≤ (w : ℚ) / 200 * 2 ^ (-53 : ℤ) ∧
    |nearest ((w : ℚ) / 200) - (w : ℚ) / 200| ≤ 2 ^ (-9 : ℤ) := by
  have hw1 : (1 : ℚ) ≤ w := by exact_mod_cast h1
  have hw2 : (w : ℚ) < 20 * 2 ^ 48 := by exact_mod_cast h2
  have hq0 : (0 : ℚ) < (w : ℚ) / 200 := by positivity
  have hb1 : -8 ≤ binade ((w : ℚ) / 200) := by
    apply binade_ge
    rw [abs_of_pos hq0]
    norm_num
    linarith
  have hb2 : binade ((w : ℚ) / 200) < 45 := by
    apply binade_lt _ _ hq0.ne'
    rw [abs_of_pos hq0]
    norm_num
    linarith
  refine ⟨hq0.ne', hb1, hb2, ?_, ?_⟩
  · have := nearest_error _ hq0.ne' (by omega)
    rwa [abs_of_pos hq0] at this
  · calc |nearest ((w : ℚ) / 200) - (w : ℚ) / 200|
        ≤ 2 ^ (binade ((w : ℚ) / 200) - 53) := nearest_error_ulp _ hq0.ne' (by omega)
      _ ≤ 2 ^ (-9 : ℤ) := zpow_le_zpow_right₀ (by norm_num) (by omega)

/-- Facts about `y = nearest (x * 10)`: it is within `1/25` of `w / 20`. -/
theorem scaled_bounds (w : ℕ) (h1 : 1 ≤ w) (h2 : w < 20 * 2 ^ 48) :
    0 < nearest ((w : ℚ) / 200) * 10 ∧
    -8 ≤ binade (nearest ((w : ℚ) / 200) * 10) ∧
    binade (nearest ((w : ℚ) / 200) * 10) < 48 ∧
    |nearest (nearest ((w : ℚ) / 200) * 10) - (w : ℚ) / 20| ≤ 1 / 25 := by
  obtain ⟨hq0, hb1, hb2, herr, habs⟩ := minutes_bounds w h1 h2
  have hw1 : (1 : ℚ) ≤ w := by exact_mod_cast h1
  have hw2 : (w : ℚ) ≤ 20 * 2 ^ 48 - 1 := by
    have : w + 1 ≤ 20 * 2 ^ 48 := h2
    have : ((w + 1 : ℕ) : ℚ) ≤ ((20 * 2 ^ 48 : ℕ) : ℚ) := by exact_mod_cast this
    push_cast at this
    linarith
  rw [abs_le] at herr habs
  obtain ⟨he1, he2⟩ := herr
  obtain ⟨ha1, ha2⟩ := habs
  have h9 : (2 : ℚ) ^ (-9 : ℤ) = 1 / 512 := by norm_num
  have h53 : (2 : ℚ) ^ (-53 : ℤ) = 1 / 9007199254740992 := by norm_num
  rw [h9] at ha1 ha2
  rw [h53] at he1 he2
  have hqpos : (0 : ℚ) < (w : ℚ) / 200 := by positivity
  have hzlo : (w : ℚ) / 200 ≤ nearest ((w : ℚ) / 200) * 10 := by nlinarith
  have hzpos : 0 < nearest ((w : ℚ) / 200) * 10 := by linarith
  have hzhi : nearest ((w : ℚ) / 200) * 10 < 2 ^ (48 : ℤ) := by
    norm_num
    linarith
  have hbz1 : -8 ≤ binade (nearest ((w : ℚ) / 200) * 10) := by
    apply binade_ge
    rw [abs_of_pos hzpos]
    have : (2 : ℚ) ^ (-8 : ℤ) ≤ (w : ℚ) / 200 := by norm_num; linarith
    linarith
  have hbz2 : binade (nearest ((w : ℚ) / 200) * 10) < 48 := by
    apply binade_lt _ _ hzpos.ne'
    rw [abs_of_pos hzpos]
    exact hzhi
  refine ⟨hzpos, hbz1, hbz2, ?_⟩
  have herr2 : |nearest (nearest ((w : ℚ) / 200) * 10) - nearest ((w : ℚ) / 200) * 10| ≤
      2 ^ (-6 : ℤ) :=
    calc |nearest (nearest ((w : ℚ) / 200) * 10) - nearest ((w : ℚ) / 200) * 10|
        ≤ 2 ^ (binade (nearest ((w : ℚ) / 200) * 10) - 53) :=
          nearest_error_ulp _ hzpos.ne' (by omega)
      _ ≤ 2 ^ (-6 : ℤ) := zpow_le_zpow_right₀ (by norm_num) (by omega)
  have h6 : (2 : ℚ) ^ (-6 : ℤ) = 1 / 64 := by norm_num
  rw [h6, abs_le] at herr2
  obtain ⟨hy1, hy2⟩ := herr2
  rw [abs_le]
  constructor <;> linarith

/-- Tie case: for `w = 20 k + 10` the scaled value is exactly `k + 1/2`. -/
theorem scaled_tie (k : ℕ) (h2 : 20 * k + 10 < 20 * 2 ^ 48) :
    nearest (nearest (((20 * k + 10 : ℕ) : ℚ) / 200) * 10) = (k : ℚ) + 1 / 2 := by
  have h1 : 1 ≤ 20 * k + 10 := by omega
  obtain ⟨hq0, hb1, hb2, -, -⟩ := minutes_bounds (20 * k + 10) h1 h2
  obtain ⟨hzpos, hbz1, hbz2, -⟩ := scaled_bounds (20 * k + 10) h1 h2
  have hqv : ((20 * k + 10 : ℕ) : ℚ) / 200 = (2 * (k : ℚ) + 1) / 20 := by
    push_cast
    ring
  rw [hqv] at hq0 hb1 hb2 hzpos hbz1 hbz2 ⊢
  have hqpos : (0 : ℚ) < (2 * (k : ℚ) + 1) / 20 := by positivity
  -- first rounding
  obtain ⟨t, het, hpe, hpu⟩ := ulp_pow (binade ((2 * (k : ℚ) + 1) / 20)) (by omega)
  have hx := nearest_eq _ hq0 (by omega)
  rw [hpu] at hx
  have hqu : (2 * (k : ℚ) + 1) / 20 / (1 / (4 * 2 ^ t)) = (((2 * k + 1) * 2 ^ t : ℕ) : ℚ) / 5 := by
    push_cast
    field_simp
    ring
  rw [hqu] at hx
  set M := roundHalfEven ((((2 * k + 1) * 2 ^ t : ℕ) : ℚ) / 5) with hM
  have hMerr := roundHalfEven_error ((((2 * k + 1) * 2 ^ t : ℕ) : ℚ) / 5)
  rw [← hM] at hMerr
  have hd : |(((2 * k + 1) * 2 ^ t : ℕ) : ℤ) - 5 * M| ≤ 2 := by
    rw [abs_le] at hMerr ⊢
    obtain ⟨a1, a2⟩ := hMerr
    constructor
    · have : (-3 : ℚ) < (((((2 * k + 1) * 2 ^ t : ℕ) : ℤ) - 5 * M : ℤ) : ℚ) := by
        push_cast
        linarith
      have : (-3 : ℤ) < (((2 * k + 1) * 2 ^ t : ℕ) : ℤ) - 5 * M := by exact_mod_cast this
      omega
    · have : (((((2 * k + 1) * 2 ^ t : ℕ) : ℤ) - 5 * M : ℤ) : ℚ) < 3 := by
        push_cast
        linarith
      have : (((2 * k + 1) * 2 ^ t : ℕ) : ℤ) - 5 * M < 3 := by exact_mod_cast this
      omega
  -- x is at least 2^e
  have hMlo : (2 ^ 52 : ℤ) ≤ M := by
    apply le_roundHalfEven
    rw [← hqu, ← hpu]
    have hble := binade_le _ hq0
    rw [abs_of_pos hqpos] at hble
    rw [le_div_iff₀ (by positivity)]
    have : ((2 ^ 52 : ℤ) : ℚ) * 2 ^ (binade ((2 * (k : ℚ) + 1) / 20) - 52) =
        2 ^ binade ((2 * (k : ℚ) + 1) / 20) := by
      rw [zpow_sub₀ (by norm_num : (2 : ℚ) ≠ 0)]
      norm_num
      ring
    rw [this]
    exact hble
  -- second rounding
  obtain ⟨s, hes, hpe2, hpu2⟩ := ulp_pow (binade (nearest ((2 * (k : ℚ) + 1) / 20) * 10)) (by omega)
  have hy := nearest_eq _ hzpos.ne' (by omega)
  rw [hpu2] at hy
  rw [hy, hx]
  -- exponents: s + 3 ≤ t
  have hst : s + 3 ≤ t := by
    have hge : binade ((2 * (k : ℚ) + 1) / 20) + 3 ≤ binade (nearest ((2 * (k : ℚ) + 1) / 20) * 10) := by
      apply binade_ge
      rw [abs_of_pos hzpos, hx, zpow_add₀ (by norm_num : (2 : ℚ) ≠ 0), hpe]
      have : ((2 ^ 52 : ℤ) : ℚ) ≤ M := by exact_mod_cast hMlo
      have h2t : (0 : ℚ) < 2 ^ t := by positivity
      rw [div_mul_eq_mul_div, div_le_iff₀ h2t]
      have e1 : (M : ℚ) * (1 / (4 * 2 ^ t)) * 10 * 2 ^ t = M * (10 / 4) := by
        field_simp
        ring
      rw [e1]
      push_cast at this
      norm_num
      linarith
    omega
  obtain ⟨p, hp⟩ : ∃ p : ℕ, t = s + 3 + p := ⟨t - (s + 3), by omega⟩
  have hI : roundHalfEven ((M : ℚ) * (1 / (4 * 2 ^ t)) * 10 / (1 / (4 * 2 ^ s))) =
      (((2 * k + 1) * 2 ^ (s + 1) : ℕ) : ℤ) := by
    apply roundHalfEven_of_even
    · have hev : (((2 * k + 1) * 2 ^ (s + 1) : ℕ) : ℤ) =
          2 * (((2 * k + 1) * 2 ^ s : ℕ) : ℤ) := by
        push_cast
        ring
      rw [hev]
      omega
    · have e2 : (M : ℚ) * (1 / (4 * 2 ^ t)) * 10 / (1 / (4 * 2 ^ s)) -
          ((((2 * k + 1) * 2 ^ (s + 1) : ℕ) : ℤ) : ℚ) =
          -(2 * ((((((2 * k + 1) * 2 ^ t : ℕ) : ℤ) - 5 * M : ℤ)) : ℚ)) / (8 * 2 ^ p) := by
        subst hp
        push_cast
        field_simp
        ring
      rw [e2, abs_div, abs_neg, abs_mul]
      have hdq : |((((((2 * k + 1) * 2 ^ t : ℕ) : ℤ) - 5 * M : ℤ)) : ℚ)| ≤ 2 := by
        rw [← Int.cast_abs]
        exact_mod_cast hd
      have h8 : (8 : ℚ) ≤ |(8 : ℚ) * 2 ^ p| := by
        rw [abs_of_pos (by positivity)]
        have : (1 : ℚ) ≤ 2 ^ p := one_le_pow₀ (by norm_num)
        linarith
      rw [div_le_iff₀ (by positivity)]
      rw [abs_of_pos (by norm_num : (0 : ℚ) < 2)]
      linarith
  rw [hI]
  push_cast
  field_simp
  ring

theorem Round_of_nonneg (x : ℚ) (h : 0 ≤ x) : math.Round x = ((⌊x + 1 / 2⌋ : ℤ) : ℚ) := by
  unfold math.Round
  rw [if_neg (not_lt.mpr h)]

theorem Round_div_twenty (w : ℕ) : math.Round ((w : ℚ) / 20) = (((w + 10) / 20 : ℕ) : ℚ) := by
  rw [Round_of_nonneg _ (by positivity)]
  have : ⌊(w : ℚ) / 20 + 1 / 2⌋ = (((w + 10) / 20 : ℕ) : ℤ) := by
    rw [Int.floor_eq_iff]
    have h1 : 20 * ((w + 10) / 20) ≤ w + 10 := Nat.mul_div_le _ _
    have h2 : w + 10 < 20 * ((w + 10) / 20) + 20 := by
      have := Nat.lt_mul_div_succ (w + 10) (by norm_num : 0 < 20)
      omega
    have h1q : (20 : ℚ) * (((w + 10) / 20 : ℕ) : ℚ) ≤ (w : ℚ) + 10 := by exact_mod_cast h1
    have h2q : (w : ℚ) + 10 < 20 * (((w + 10) / 20 : ℕ) : ℚ) + 20 := by exact_mod_cast h2
    simp only [Int.cast_natCast]
    constructor <;> linarith
  rw [this, Int.cast_natCast]

theorem Round_scaled (w : ℕ) (h1 : 1 ≤ w) (h2 : w < 20 * 2 ^ 48) :
    math.Round (nearest (nearest ((w : ℚ) / 200) * 10)) = (((w + 10) / 20 : ℕ) : ℚ) := by
  obtain ⟨-, -, -, herr⟩ := scaled_bounds w h1 h2
  rw [abs_le] at herr
  obtain ⟨e1, e2⟩ := herr
  have hw1 : (1 : ℚ) ≤ w := by exact_mod_cast h1
  have hy0 : 0 ≤ nearest (nearest ((w : ℚ) / 200) * 10) := by linarith
  rw [Round_of_nonneg _ hy0]
  have hdm : w = 20 * (w / 20) + w % 20 := (Nat.div_add_mod w 20).symm
  have hr : w % 20 < 20 := Nat.mod_lt _ (by norm_num)
  have hwq : (w : ℚ) = 20 * ((w / 20 : ℕ) : ℚ) + ((w % 20 : ℕ) : ℚ) := by exact_mod_cast hdm
  have key : ⌊nearest (nearest ((w : ℚ) / 200) * 10) + 1 / 2⌋ = (((w + 10) / 20 : ℕ) : ℤ) := by
    rw [Int.floor_eq_iff]
    rcases Nat.lt_trichotomy (w % 20) 10 with hlt | heq | hgt
    · have hK : (w + 10) / 20 = w / 20 := by omega
      have hrq : ((w % 20 : ℕ) : ℚ) ≤ 9 := by exact_mod_cast (by omega : w % 20 ≤ 9)
      have hr0 : (0 : ℚ) ≤ ((w % 20 : ℕ) : ℚ) := by positivity
      rw [hK]
      simp only [Int.cast_natCast, Nat.cast_add, Nat.cast_one, Int.cast_add, Int.cast_one]
      constructor <;> linarith
    · have hK : (w + 10) / 20 = w / 20 + 1 := by omega
      have hw : w = 20 * (w / 20) + 10 := by omega
      have htie := scaled_tie (w / 20) (by omega)
      rw [← hw] at htie
      rw [hK, htie]
      simp only [Int.cast_natCast, Nat.cast_add, Nat.cast_one, Int.cast_add, Int.cast_one]
      constructor <;> linarith
    · have hK : (w + 10) / 20 = w / 20 + 1 := by omega
      have hrq : (11 : ℚ) ≤ ((w % 20 : ℕ) : ℚ) := by exact_mod_cast (by omega : 11 ≤ w % 20)
      have hrq2 : ((w % 20 : ℕ) : ℚ) ≤ 19 := by exact_mod_cast (by omega : w % 20 ≤ 19)
      rw [hK]
      simp only [Int.cast_natCast, Nat.cast_add, Nat.cast_one, Int.cast_add, Int.cast_one]
      constructor <;> linarith
  rw [key, Int.cast_natCast]

theorem calculateReadingTime_eq (w : ℕ) (h2 : w < 20 * 2 ^ 48) :
    calculateReadingTime (w : ℤ) = nearest ((((w + 10) / 20 : ℕ) : ℚ) / 10) := by
  rcases Nat.eq_zero_or_pos w with h0 | hpos
  · subst h0
    decide!
  · unfold calculateReadingTime roundToDecimal math.Pow10 float64.div float64.mul
    have hof : ofInt (w : ℤ) = (w : ℚ) := by
      have := ofInt_exact (w : ℤ) (by
        rw [abs_of_nonneg (by positivity)]
        have : (w : ℤ) < 20 * 2 ^ 48 := by exact_mod_cast h2
        linarith [show (20 : ℤ) * 2 ^ 48 < 2 ^ 53 by norm_num])
      simpa using this
    simp only [hof, pow_one]
    rw [Round_scaled w hpos h2]

theorem index_le_five (n : ℤ) (k : ℕ) (hlo : 1024 ^ (k + 1) ≤ n) (h63 : n < 2 ^ 63) :
    k ≤ 5 := by
  by_contra hk
  have h1 : (1024 : ℤ) ^ 7 ≤ 1024 ^ (k + 1) := pow_le_pow_right₀ (by norm_num) (by omega)
  have h2 : (2 : ℤ) ^ 63 < 1024 ^ 7 := by norm_num
  linarith

/-- Claim C7, as stated, fails.  The size `9063494250083123` lies between `1024^5` and
`1024^6`, its quotient by `1024^5` is below `8.05` and is written `8.0` with one
decimal digit, but `humanizeSize` returns `8.1 PB`: the conversion `float64(size)`
rounds the size up to `9063494250083124` first. -/
theorem humanizeSize_counterexample :
    (1024 : ℤ) ^ 5 ≤ 9063494250083123 ∧ (9063494250083123 : ℤ) < 1024 ^ 6 ∧
    (8 : ℚ) ≤ (9063494250083123 : ℚ) / 1024 ^ 5 ∧
    (9063494250083123 : ℚ) / 1024 ^ 5 < 805 / 100 ∧
    fmt.fixed1 ((9063494250083123 : ℚ) / 1024 ^ 5) = "8.0" ∧
    float64.ofInt 9063494250083123 = 9063494250083124 ∧
    humanizeSize 9063494250083123 = some "8.1 PB" := by
  decide!

/-- Claim C7, amended.  For `0 ≤ n < 1024`, `humanizeSize(n)` is the decimal digits of
`n` followed by ` B`.  For `1024 ≤ n < 2^53`, with `k` the index such that
`1024^(k+1) ≤ n < 1024^(k+2)`, it is `n / 1024^(k+1)` correctly rounded to one
decimal digit (nearest tenth `t / 10`, a tie going to the even `t`), then a space,
the `k`-th letter of `KMGTPE` and `B`.  (From `2^53` on the size is first rounded to
a `float64`, which can change the digit.) -/
theorem humanizeSize_spec (n : ℤ) :
    (0 ≤ n → n < 1024 → humanizeSize n = some (toString n.toNat ++ " B")) ∧
    (∀ k : ℕ, 1024 ^ (k + 1) ≤ n → n < 1024 ^ (k + 2) → n < 2 ^ 53 →
      ∃ (t : ℕ) (c : Char), "KMGTPE".data.get? k = some c ∧
        |10 * ((n : ℚ) / 1024 ^ (k + 1)) - t| ≤ 1 / 2 ∧
        (|10 * ((n : ℚ) / 1024 ^ (k + 1)) - t| = 1 / 2 → t % 2 = 0) ∧
        humanizeSize n =
          some (toString (t / 10) ++ "." ++ toString (t % 10) ++ " " ++
            String.singleton c ++ "B")) ∧
    humanizeSize 100 = some "100 B" ∧
    humanizeSize 1024 = some "1.0 KB" ∧
    humanizeSize 1536 = some "1.5 KB" ∧
    humanizeSize 1048576 = some "1.0 MB" ∧
    humanizeSize 1073741824 = some "1.0 GB" := by
  refine ⟨humanizeSize_small n, ?_, by decide!, by decide!, by decide!, by decide!,
    by decide!⟩
  intro k hlo hhi h53
  have h63 : n < 2 ^ 63 := by linarith [show (2 : ℤ) ^ 53 < 2 ^ 63 by norm_num]
  have hk : k ≤ 5 := index_le_five n k hlo h63
  have hpos : (0 : ℤ) < n := lt_of_lt_of_le (by positivity) hlo
  obtain ⟨c, hc, hsz⟩ := humanizeSize_scaled n k hlo hhi h63
  have habs : |n| < 2 ^ 53 := by rwa [abs_of_pos hpos]
  rw [ofInt_exact n habs, div_pow1024_exact n (k + 1) habs (by omega)] at hsz
  have hx : (0 : ℚ) < (n : ℚ) / 1024 ^ (k + 1) := by
    have : (0 : ℚ) < n := by exact_mod_cast hpos
    positivity
  have hnn := roundHalfEven_nonneg (|(n : ℚ) / 1024 ^ (k + 1)| * 10) (by positivity)
  have hcast : (((roundHalfEven (|(n : ℚ) / 1024 ^ (k + 1)| * 10)).toNat : ℕ) : ℚ) =
      ((roundHalfEven (|(n : ℚ) / 1024 ^ (k + 1)| * 10) : ℤ) : ℚ) := by
    rw [← Int.cast_natCast, Int.toNat_of_nonneg hnn]
  have harg : 10 * ((n : ℚ) / 1024 ^ (k + 1)) = |(n : ℚ) / 1024 ^ (k + 1)| * 10 := by
    rw [abs_of_pos hx, mul_comm]
  refine ⟨(roundHalfEven (|(n : ℚ) / 1024 ^ (k + 1)| * 10)).toNat, c, hc, ?_, ?_, ?_⟩
  · rw [hcast, harg]
    exact roundHalfEven_error _
  · rw [hcast, harg]
    intro htie
    have := roundHalfEven_tie _ htie
    omega
  · rw [hsz]
    unfold fmt.fixed1
    simp only
    rw [if_neg (not_lt.mpr hx.le), empty_append]

/-- Witness for C7 (amended): the sizes `100` and `1536` of `info_test.go`, the
latter with `k = 0`. -/
theorem humanizeSize_spec_witness :
    humanizeSize 100 = some (toString (100 : ℤ).toNat ++ " B") ∧
    ∃ (t : ℕ) (c : Char), "KMGTPE".data.get? 0 = some c ∧
      |10 * (((1536 : ℤ) : ℚ) / 1024 ^ (0 + 1)) - t| ≤ 1 / 2 ∧
      (|10 * (((1536 : ℤ) : ℚ) / 1024 ^ (0 + 1)) - t| = 1 / 2 → t % 2 = 0) ∧
      humanizeSize 1536 =
        some (toString (t / 10) ++ "." ++ toString (t % 10) ++ " " ++
          String.singleton c ++ "B") :=
  ⟨(humanizeSize_spec 100).1 (by norm_num) (by norm_num),
    (humanizeSize_spec 1536).2.1 0 (by norm_num) (by norm_num) (by norm_num)⟩

/-- Claim C8, as stated, fails.  For the word count `5629499534213209`, `round(w / 20)`
is `281474976710660`, but the `float64` product `(w / 200) * 10` is rounded up to
`281474976710660.5`, so `calculateReadingTime` returns the `float64` nearest to
`28147497671066.1` instead of `28147497671066.0`. -/
theorem calculateReadingTime_counterexample :
    math.Round ((5629499534213209 : ℚ) / 20) = 281474976710660 ∧
    calculateReadingTime 5629499534213209 = float64.nearest (281474976710661 / 10) ∧
    calculateReadingTime 5629499534213209 ≠
      float64.nearest (math.Round ((5629499534213209 : ℚ) / 20) / 10) ∧
    1 / 10 ≤ calculateReadingTime 5629499534213209 -
      math.Round ((5629499534213209 : ℚ) / 20) / 10 := by
  decide!

/-- Claim C8, amended.  For every word count `0 ≤ w < 20 * 2^48`, `calculateReadingTime(w)`
is the `float64` nearest to `round(w / 20) / 10`, where `round` is `math.Round` (ties
away from zero) and equals `⌊(w + 10) / 20⌋`; `0` gives `0.0`, `200` gives `1.0` and
`500` gives `2.5`. -/
theorem calculateReadingTime_spec (w : ℤ) (h0 : 0 ≤ w) (h1 : w < 20 * 2 ^ 48) :
    calculateReadingTime w = float64.nearest (math.Round ((w : ℚ) / 20) / 10) ∧
    math.Round ((w : ℚ) / 20) = (((w.toNat + 10) / 20 : ℕ) : ℚ) ∧
    |calculateReadingTime w - math.Round ((w : ℚ) / 20) / 10| ≤
      math.Round ((w : ℚ) / 20) / 10 * 2 ^ (-53 : ℤ) ∧
    calculateReadingTime 0 = 0 ∧
    calculateReadingTime 200 = 1 ∧
    calculateReadingTime 500 = 5 / 2 := by
  obtain ⟨N, rfl⟩ := Int.eq_ofNat_of_zero_le h0
  have hN : N < 20 * 2 ^ 48 := by exact_mod_cast h1
  have hR : math.Round (((N : ℤ) : ℚ) / 20) = (((N + 10) / 20 : ℕ) : ℚ) := by
    rw [Int.cast_natCast]
    exact Round_div_twenty N
  have hval : calculateReadingTime (N : ℤ) =
      float64.nearest (math.Round (((N : ℤ) : ℚ) / 20) / 10) := by
    rw [hR]
    exact calculateReadingTime_eq N hN
  refine ⟨hval, by simpa using hR, ?_, by decide!, by decide!, by decide!⟩
  rw [hval, hR]
  rcases Nat.eq_zero_or_pos ((N + 10) / 20) with hz | hp
  · rw [hz]
    simp [nearest_zero]
  · have hq : (0 : ℚ) < (((N + 10) / 20 : ℕ) : ℚ) / 10 := by
      have : (0 : ℚ) < (((N + 10) / 20 : ℕ) : ℚ) := by exact_mod_cast hp
      positivity
    have hb : -1022 ≤ binade ((((N + 10) / 20 : ℕ) : ℚ) / 10) := by
      have h4 : (-4 : ℤ) ≤ binade ((((N + 10) / 20 : ℕ) : ℚ) / 10) := by
        apply binade_ge
        rw [abs_of_pos hq]
        have : (1 : ℚ) ≤ (((N + 10) / 20 : ℕ) : ℚ) := by exact_mod_cast hp
        norm_num
        linarith
      omega
    have := nearest_error _ hq.ne' hb
    rwa [abs_of_pos hq] at this

/-- Witness for C8 (amended): a word count on a tie, `w = 30` (`w / 20 = 1.5`). -/
theorem calculateReadingTime_spec_witness :
    (0 : ℤ) ≤ 30 ∧ (30 : ℤ) < 20 * 2 ^ 48 ∧
    calculateReadingTime 30 = float64.nearest (math.Round (((30 : ℤ) : ℚ) / 20) / 10) :=
  ⟨by norm_num, by norm_num, (calculateReadingTime_spec 30 (by norm_num) (by norm_num)).1⟩

/-! ## The scaling loop of `humanizeSize` -/

/-- Every `int64` size from `1024` on lies between two consecutive powers of `1024`,
the lower one at most `1024^6`. -/
theorem index_exists (size : ℤ) (hlo : 1024 ≤ size) (hhi : size < 2 ^ 63) :
    ∃ k : ℕ, k ≤ 5 ∧ 1024 ^ (k + 1) ≤ size ∧ size < 1024 ^ (k + 2) := by
  by_cases h2 : size < 1024 ^ 2
  · exact ⟨0, by norm_num, by simpa using hlo, by simpa using h2⟩
  by_cases h3 : size < 1024 ^ 3
  · exact ⟨1, by norm_num, by simpa using h2, by simpa using h3⟩
  by_cases h4 : size < 1024 ^ 4
  · exact ⟨2, by norm_num, by simpa using h3, by simpa using h4⟩
  by_cases h5 : size < 1024 ^ 5
  · exact ⟨3, by norm_num, by simpa using h4, by simpa using h5⟩
  by_cases h6 : size < 1024 ^ 6
  · exact ⟨4, by norm_num, by simpa using h5, by simpa using h6⟩
  · refine ⟨5, le_refl _, by simpa using h6, ?_⟩
    calc size < 2 ^ 63 := hhi
      _ < 1024 ^ (5 + 2) := by norm_num

/-- The loop state after `j` turns, as long as `j` does not exceed an index bound
`k ≤ 5`: no multiplication has wrapped around. -/
theorem loop_iterate (N k : ℕ) (hk : k ≤ 5) :
    ∀ j, j ≤ k → LoopState.next^[j] (loopInit (N : ℤ)) =
      ⟨N / 1024 ^ (j + 1), 1024 ^ (j + 1), j⟩ := by
  intro j
  induction j with
  | zero =>
    intro _
    simp [loopInit]
  | succ j ih =>
    intro hj
    rw [Function.iterate_succ_apply', ih (by omega)]
    unfold LoopState.next
    simp only
    have hw : wrapInt64 ((1024 : ℤ) ^ (j + 1) * 1024) = 1024 ^ (j + 1 + 1) := by
      have hpow : (1024 : ℤ) ^ (j + 1) * 1024 = 1024 ^ (j + 1 + 1) := by
        rw [pow_succ (1024 : ℤ) (j + 1)]
      have hle : (1024 : ℤ) ^ (j + 1 + 1) ≤ 1024 ^ 6 :=
        pow_le_pow_right₀ (by norm_num) (by omega)
      have hpos : (0 : ℤ) ≤ 1024 ^ (j + 1 + 1) := by positivity
      rw [hpow, wrapInt64_id]
      · linarith
      · calc (1024 : ℤ) ^ (j + 1 + 1) ≤ 1024 ^ 6 := hle
          _ < 2 ^ 63 := by norm_num
    rw [hw, Nat.div_div_eq_div_mul, ← pow_succ]

/-- Claim C11.  For every size representable as a signed 64-bit integer with
`size ≥ 1024`, the scaling loop of `humanizeSize` terminates: it runs exactly `exp`
turns, where `exp ≤ 5` is the unit index it ends with; in every turn the loop
condition holds and the product `div * 1024` stays inside `int64` (no overflow), and
after the last turn the condition fails.  The divisor it ends with is
`1024^(exp+1)`, is below `2^63` and at most `size`.  The fuel of `humanizeLoop` is
never used up (any fuel from `size / 1024` on gives the same result), the index
selects a letter of `KMGTPE`, and `humanizeSize` returns a string. -/
theorem humanizeSize_loop_safe (size : ℤ) (hlo : 1024 ≤ size) (hhi : size < 2 ^ 63) :
    (humanizeScale size).2 ≤ 5 ∧
    (humanizeScale size).1 = 1024 ^ ((humanizeScale size).2 + 1) ∧
    (humanizeScale size).1 ≤ size ∧
    (humanizeScale size).1 < 2 ^ 63 ∧
    (∀ j, j < (humanizeScale size).2 →
      (LoopState.next^[j] (loopInit size)).continues = true ∧
      0 < (LoopState.next^[j] (loopInit size)).div * 1024 ∧
      (LoopState.next^[j] (loopInit size)).div * 1024 < 2 ^ 63) ∧
    (LoopState.next^[(humanizeScale size).2] (loopInit size)).continues = false ∧
    (LoopState.next^[(humanizeScale size).2] (loopInit size)).div = (humanizeScale size).1 ∧
    (LoopState.next^[(humanizeScale size).2] (loopInit size)).exp = (humanizeScale size).2 ∧
    (∀ fuel, size.toNat / 1024 ≤ fuel →
      humanizeLoop fuel (size.toNat / 1024) 1024 0 = humanizeScale size) ∧
    (∃ c, "KMGTPE".data.get? (humanizeScale size).2 = some c) ∧
    (humanizeSize size).isSome = true := by
  obtain ⟨k, hk, hklo, hkhi⟩ := index_exists size hlo hhi
  obtain ⟨c, hc, hsz⟩ := humanizeSize_scaled size k hklo hkhi hhi
  obtain ⟨N, rfl⟩ := Int.eq_ofNat_of_zero_le (by linarith : (0 : ℤ) ≤ size)
  have hlo' : 1024 ^ (k + 1) ≤ N := by exact_mod_cast hklo
  have hhi' : N < 1024 ^ (k + 2) := by exact_mod_cast hkhi
  have hfuel : ∀ fuel, N / 1024 ≤ fuel →
      humanizeLoop fuel (N / 1024) 1024 0 = (1024 ^ (k + 1), k) := by
    intro fuel hf
    have := humanizeLoop_spec k fuel (N / 1024) 0 hf
      (Or.inr (by rw [Nat.le_div_iff_mul_le (by norm_num)]; rw [pow_succ] at hlo'; exact hlo'))
      (by rw [Nat.div_lt_iff_lt_mul (by norm_num)]; rw [pow_succ] at hhi'; exact hhi')
      (by omega)
    simpa using this
  have hscale : humanizeScale (N : ℤ) = (1024 ^ (k + 1), k) := by
    unfold humanizeScale
    simp only [Int.toNat_ofNat]
    exact hfuel _ (le_refl _)
  have hiter := loop_iterate N k hk
  have hpowle : ∀ j, j ≤ k → (1024 : ℤ) ^ (j + 1) ≤ 1024 ^ 6 := fun j hj =>
    pow_le_pow_right₀ (by norm_num) (by omega)
  rw [hscale]
  simp only [Int.toNat_ofNat]
  refine ⟨hk, trivial, hklo, ?_, ?_, ?_, ?_, ?_, hfuel, ⟨c, hc⟩, ?_⟩
  · calc (1024 : ℤ) ^ (k + 1) ≤ 1024 ^ 6 := hpowle k (le_refl _)
      _ < 2 ^ 63 := by norm_num
  · intro j hj
    rw [hiter j (by omega)]
    refine ⟨?_, ?_, ?_⟩
    · simp only [LoopState.continues, decide_eq_true_eq, ge_iff_le]
      rw [Nat.le_div_iff_mul_le (by positivity), ← pow_succ']
      calc 1024 ^ (j + 1 + 1) ≤ 1024 ^ (k + 1) := Nat.pow_le_pow_right (by norm_num) (by omega)
        _ ≤ N := hlo'
    · positivity
    · calc (1024 : ℤ) ^ (j + 1) * 1024 = 1024 ^ (j + 1 + 1) := by rw [pow_succ (1024 : ℤ) (j + 1)]
        _ ≤ 1024 ^ 6 := hpowle (j + 1) (by omega)
        _ < 2 ^ 63 := by norm_num
  · rw [hiter k (le_refl _)]
    simp only [LoopState.continues, decide_eq_false_iff_not, ge_iff_le, not_le]
    rw [Nat.div_lt_iff_lt_mul (by positivity), ← pow_succ']
    exact hhi'
  · rw [hiter k (le_refl _)]
  · rw [hiter k (le_refl _)]
  · rw [hsz]
    rfl

/-- Witness for C11: the largest `int64`, `2^63 - 1`, ends with index `5` (`E`) and
divisor `1024^6`. -/
theorem humanizeSize_loop_safe_witness :
    (1024 : ℤ) ≤ 9223372036854775807 ∧ (9223372036854775807 : ℤ) < 2 ^ 63 ∧
    (humanizeScale 9223372036854775807).2 ≤ 5 ∧
    humanizeScale 9223372036854775807 = (1152921504606846976, 5) ∧
    humanizeSize 9223372036854775807 = some "8.0 EB" :=
  ⟨by norm_num, by norm_num,
    (humanizeSize_loop_safe 9223372036854775807 (by norm_num) (by norm_num)).1,
    by decide!, by decide!⟩

end actions
